import Mathlib

/- Shallow embedding of the Y-maze scheduler core from `src/code.py` and
`src/modern-app/backend/main.py` (the two copies of the engine agree on all
functions embedded here; differences are restricted to the GUI/HTTP glue).
Python integers are modelled as `Nat`/`Int`; the mutable `remaining` dict of
the exit-arm balancer as a `Quota` record; Python dicts built with distinct
keys as association lists; the process-global `random` generator as explicit
oracle parameters (a coin stream, shuffle functions and tie-break priority
streams), so that theorems quantify over every outcome of the random draws. -/

namespace YMaze

/- Animal record: one already-parsed roster row. -/
structure Animal where
  animalID : String
  tag : String
  sex : String
  genotype : String
  cage : String
deriving DecidableEq, Repr

/- The three maze arms, as in the source: the literal list `[1, 2, 3]`. -/
def arms : List Nat := [1, 2, 3]

/- `sorted({1,2,3} - {forbid})` from `plan_cage_dp`: the allowed exit arms of
one animal, in ascending order. -/
def allowedArms (forbid : Nat) : List Nat := arms.filter (fun a => a ≠ forbid)

/- Result record of `plan_cage_dp`: `{'cost', 'end', 'first', 'colors'}`.
`end`/`first` are `Option` because Python returns `prev_arm` (possibly `None`)
for an empty cage. -/
structure Plan where
  cost : Nat
  endArm : Option Nat
  first : Option Nat
  colors : List Nat
deriving DecidableEq, Repr

/- One DP layer `dp[i]`: an insertion-ordered dict mapping a color to
`(cost, prev_color)`, modelled as an association list in key-insertion order
(which is the iteration order of the `allowed[i]` tuple). -/
abbrev Layer := List (Nat × Nat × Option Nat)

/- `dp[0]`: base case of the DP; charges 1 iff an incoming arm exists and the
color differs from it. -/
def initLayer (prev : Option Nat) (a0 : List Nat) : Layer :=
  a0.map (fun c =>
    (c, (match prev with
         | none => 0
         | some p => if c = p then 0 else 1), (none : Option Nat)))

/- The inner minimisation `min over dp[i-1].items()` for a fixed color `c`:
first strictly-smaller candidate wins, exactly like the Python loop that
replaces `best_cost` only on `cost_here < best_cost`. -/
def bestFromPrev (layer : Layer) (c : Nat) : Option (Nat × Nat) :=
  layer.foldl
    (fun acc e =>
      let ch := e.2.1 + (if c = e.1 then 0 else 1)
      match acc with
      | none => some (ch, e.1)
      | some b => if ch < b.1 then some (ch, e.1) else some b)
    none

/- One DP propagation step producing `dp[i]` from `dp[i-1]` and `allowed[i]`.
The `none` fallback mirrors Python's `best_cost = None` state, which would
poison the rest of the computation; it is unreachable because layers built
from a nonempty `allowed[0]` are never empty. -/
def nextLayer (layer : Layer) (ai : List Nat) : Layer :=
  ai.map (fun c =>
    match bestFromPrev layer c with
    | some b => (c, b.1, some b.2)
    | none => (c, 0, none))

/- All DP layers `dp[0] .. dp[m-1]`, front layer first. -/
def stepLayers (l : Layer) : List (List Nat) → List Layer
  | [] => [l]
  | ai :: rest => l :: stepLayers (nextLayer l ai) rest

/- `min(dp[-1], key=lambda c: dp[-1][c][0])`: iterate the last layer's keys in
insertion order keeping the first strictly-cheaper color. Returns
`(end_color, total_cost)`; the `[]` case mirrors Python's `min` raising on an
empty dict and is unreachable for a nonempty cage. -/
def chooseEnd (layer : Layer) : Nat × Nat :=
  match layer with
  | [] => (0, 0)
  | e :: rest =>
    rest.foldl (fun b e2 => if e2.2.1 < b.2 then (e2.1, e2.2.1) else b) (e.1, e.2.1)

/- `dict` lookup of a color inside one layer. -/
def lookupLayer (layer : Layer) (c : Nat) : Option (Nat × Option Nat) :=
  (layer.find? (fun e => e.1 = c)).map (fun e => e.2)

/- Backwards reconstruction `colors[i-1] = dp[i][colors[i]][1]`, consuming the
layers `dp[m-1], ..., dp[1]` (i.e. the tail of the layer list, reversed).
The catch-all arm mirrors Python's `KeyError`, unreachable on layers built by
the DP. -/
def reconstruct : List Layer → Nat → List Nat
  | [], c => [c]
  | l :: rest, c =>
    match lookupLayer l c with
    | some (_, some p) => reconstruct rest p ++ [c]
    | _ => [c]

/- `plan_cage_dp(cage_animals, prev_arm, learning_exit_map)` with the learning
exit map passed as a total function on `AnimalID`s (in the program the map is
a dict that is total on the roster; a missing key would raise `KeyError`). -/
def planCageDp (cageAnimals : List Animal) (prevArm : Option Nat)
    (exitMap : String → Nat) : Plan :=
  match cageAnimals with
  | [] => { cost := 0, endArm := prevArm, first := prevArm, colors := [] }
  | a1 :: rest =>
    let layers := stepLayers (initLayer prevArm (allowedArms (exitMap a1.animalID)))
      (rest.map (fun a => allowedArms (exitMap a.animalID)))
    let ec := chooseEnd (layers.getLastD [])
    let colors := reconstruct (layers.drop 1).reverse ec.1
    { cost := ec.2, endArm := some ec.1, first := colors.headD ec.1, colors := colors }

/- Independent recomputation of a sequence's switch count: one unit per
adjacent change of arm, plus one boundary unit when an incoming arm exists and
the first color differs from it. -/
def countSwitches (prev : Option Nat) : List Nat → Nat
  | [] => 0
  | c :: rest =>
    (match prev with
     | none => 0
     | some p => if c = p then 0 else 1) + countSwitches (some c) rest

/- ------------------- trial sequence generator ------------------- -/

/- The balanced multiset pool of `generate_pseudorandom_sequence`:
`countA = countB = n // 2`; when `n` is odd a fair coin decides which arm
receives the extra trial (`coin = true` means `random.random() < 0.5`, i.e.
`countA += 1`). -/
def mkPool (n armA armB : Nat) (coin : Bool) : List Nat :=
  List.replicate (n / 2 + (if n % 2 = 1 ∧ coin then 1 else 0)) armA ++
    List.replicate (n / 2 + (if n % 2 = 1 ∧ ¬coin then 1 else 0)) armB

/- `valid(seq)` from the source: the last three entries are not all equal. -/
def validTail (s : List Nat) : Bool :=
  match s.reverse with
  | a :: b :: c :: _ => !(a == b && b == c)
  | _ => true

/- No three consecutive equal values anywhere in the sequence. -/
def noTriple : List Nat → Bool
  | a :: b :: c :: t => (!(a == b && b == c)) && noTriple (b :: c :: t)
  | _ => true

/- `backtrack(cur, items)` from the source, with the `for i, cand in
enumerate(items)` loop expressed through the extra index `i` (initial calls
use `i = 0`): skip a candidate equal to `avoid_first` while `cur` is empty,
extend `cur` when the last-three check passes, recurse on the items with the
candidate removed, and fall through to the next index on failure. -/
def backtrack (avoid : Option Nat) (cur items : List Nat) (i : Nat) :
    Option (List Nat) :=
  if items = [] then some cur
  else if h : i < items.length then
    let cand := items.get ⟨i, h⟩
    if cur = [] ∧ avoid = some cand then backtrack avoid cur items (i + 1)
    else
      if validTail (cur ++ [cand]) then
        match backtrack avoid (cur ++ [cand]) (items.eraseIdx i) 0 with
        | some out => some out
        | none => backtrack avoid cur items (i + 1)
      else backtrack avoid cur items (i + 1)
  else none
termination_by (items.length, items.length - i)
decreasing_by
  all_goals simp_wf
  · right; omega
  · left; rw [List.length_eraseIdx, if_pos h]; omega
  · right; omega
  · right; omega

/- `seq = backtrack([], pool); return seq if seq else pool`: Python treats
both `None` and the empty list as falsy, so the shuffled pool is returned in
either case. -/
def genSeqFrom (avoid : Option Nat) (shuffled : List Nat) : List Nat :=
  match backtrack avoid [] shuffled 0 with
  | some s => if s.isEmpty then shuffled else s
  | none => shuffled

/- ------------------- exit-arm balancer ------------------- -/

/- The mutable `remaining`/`target` dict of `assign_balanced_exit_arms`,
keyed by the three arms.  Values are `Int` because the source decrements
Python ints without a lower bound. -/
structure Quota where
  q1 : Int
  q2 : Int
  q3 : Int
deriving DecidableEq, Repr

/- `remaining[arm]` for `arm` in {1,2,3}; other keys would raise `KeyError`
in Python and never occur (all reads are proved in range). -/
def Quota.get (q : Quota) (a : Nat) : Int :=
  if a = 1 then q.q1 else if a = 2 then q.q2 else q.q3

/- `remaining[arm] -= 1`. -/
def Quota.dec (q : Quota) (a : Nat) : Quota :=
  if a = 1 then { q with q1 := q.q1 - 1 }
  else if a = 2 then { q with q2 := q.q2 - 1 }
  else { q with q3 := q.q3 - 1 }

def Quota.sum (q : Quota) : Int := q.q1 + q.q2 + q.q3

/- Global targets: `base = N // 3`, the remainder `N % 3` goes to arm 1 then
arm 2, never to arm 3. -/
def targetQuota (N : Nat) : Quota :=
  { q1 := (N / 3 : Nat) + (if N % 3 ≥ 1 then 1 else 0),
    q2 := (N / 3 : Nat) + (if N % 3 ≥ 2 then 1 else 0),
    q3 := (N / 3 : Nat) }

/- `seq_from_offset(m, offset)`. -/
def seqFromOffset (m offset : Nat) : List Nat :=
  (List.range m).map (fun j => (j + offset) % 3 + 1)

/- `score_sequence(seq, rem)`: (overflow beyond remaining quota, negated
overlap with remaining quota), compared lexicographically. -/
def scoreSequence (s : List Nat) (rem : Quota) : Int × Int :=
  (max 0 ((s.count 1 : Int) - rem.q1) + max 0 ((s.count 2 : Int) - rem.q2) +
     max 0 ((s.count 3 : Int) - rem.q3),
   -(min (s.count 1 : Int) rem.q1 + min (s.count 2 : Int) rem.q2 +
       min (s.count 3 : Int) rem.q3))

/- Lexicographic strict comparison of two scores. -/
def scoreLt (x y : Int × Int) : Bool :=
  decide (x.1 < y.1) || (decide (x.1 = y.1) && decide (x.2 < y.2))

/- `min(candidates, key=score_sequence)` over the three rotations: Python's
`min` keeps the first candidate on ties. -/
def chooseRotation (m : Nat) (rem : Quota) : List Nat :=
  let c0 := seqFromOffset m 0
  let c1 := seqFromOffset m 1
  let c2 := seqFromOffset m 2
  let b1 := if scoreLt (scoreSequence c1 rem) (scoreSequence c0 rem) then c1 else c0
  if scoreLt (scoreSequence c2 rem) (scoreSequence b1 rem) then c2 else b1

/- Lexicographic strict "greater" on `(remaining[a], random.random())` keys;
the second component models the random float draw as a `Nat` priority. -/
def keyGt (x y : Int × Nat) : Bool :=
  decide (y.1 < x.1) || (decide (x.1 = y.1) && decide (y.2 < x.2))

/- `max((1, 2, 3), key=lambda a: (remaining[a], random.random()))`: Python's
`max` iterates 1, 2, 3 and replaces the champion only on a strictly greater
key, so the first arm wins ties of the full key. -/
def pickAlt (rem : Quota) (p : Nat → Nat) : Nat :=
  let key : Nat → Int × Nat := fun a => (rem.get a, p a)
  let b2 := if keyGt (key 2) (key 1) then 2 else 1
  if keyGt (key 3) (key b2) then 3 else b2

/- Balancer state: the remaining quotas plus a counter into the priority
stream `pri` (one fresh triple of random draws per substitution event). -/
structure BState where
  rem : Quota
  k : Nat
deriving Repr

/- One iteration of the `for arm in best_seq` loop: consume the rotation's
arm if quota remains, otherwise substitute the arm with the largest remaining
quota.  Returns the arm actually assigned. -/
def assignStep (pri : Nat → Nat → Nat) (st : BState) (arm : Nat) : Nat × BState :=
  if st.rem.get arm > 0 then (arm, ⟨st.rem.dec arm, st.k⟩)
  else
    let alt := pickAlt st.rem (pri st.k)
    (alt, ⟨st.rem.dec alt, st.k + 1⟩)

/- The whole `adjusted` list for one group's chosen rotation. -/
def adjustSeq (pri : Nat → Nat → Nat) (st : BState) : List Nat → List Nat × BState
  | [] => ([], st)
  | arm :: rest =>
    let s1 := assignStep pri st arm
    let s2 := adjustSeq pri s1.2 rest
    (s1.1 :: s2.1, s2.2)

/- The `for _, animals in groups` loop: choose the best rotation for the
group, adjust it against the remaining quotas, and record assignments by
`AnimalID` (zipping animals with the adjusted arms). -/
def assignGroups (pri : Nat → Nat → Nat) (st : BState) :
    List (List Animal) → List (String × Nat) × BState
  | [] => ([], st)
  | g :: gs =>
    let r1 := adjustSeq pri st (chooseRotation g.length st.rem)
    let pairs := (g.zip r1.1).map (fun p => (p.1.animalID, p.2))
    let r2 := assignGroups pri r1.2 gs
    (pairs ++ r2.1, r2.2)

/- `assign_balanced_exit_arms` given the shuffled groups (every outcome of
the two `random.shuffle` calls yields some list of groups whose concatenation
is a permutation of the roster; theorems quantify over all of them) and the
roster size `N = len(animal_data)`. -/
def assignCore (pri : Nat → Nat → Nat) (N : Nat) (groups : List (List Animal)) :
    List (String × Nat) :=
  (assignGroups pri ⟨targetQuota N, 0⟩ groups).1

/- ------------------- cage-pack optimizer ------------------- -/

/- `group_animals_by_cage_in_order`: an `OrderedDict` keyed by cage in
first-seen order, each value keeping the animals' original relative order. -/
def groupByCage (animals : List Animal) : List (String × List Animal) :=
  animals.foldl
    (fun acc a =>
      if acc.any (fun p => p.1 = a.cage) then
        acc.map (fun p => if p.1 = a.cage then (p.1, p.2 ++ [a]) else p)
      else acc ++ [(a.cage, [a])])
    []

/- `min(remaining, key=...)` over the unplaced cages: first strictly-cheaper
candidate wins.  Python iterates a `set` here in an order that is fixed for
the lifetime of the process; it is modelled as the first-seen cage order. -/
def minByCost (f : String → Nat) (x : String) (l : List String) : String :=
  l.foldl (fun b a => if f a < f b then a else b) x

/- The `while remaining:` loop of `build_nonlearning_plan_cage_packs` after
the first cage has been placed: repeatedly pick the cheapest next cage given
the running end arm, returning (accumulated cost, placed cages with their
chosen plans, final end arm). -/
def greedyRest (planOf : String → Nat → Plan) (remaining : List String)
    (prevEnd : Nat) : Nat × List (String × Plan) × Nat :=
  match remaining with
  | [] => (0, [], prevEnd)
  | c0 :: rest =>
    let c := minByCost (fun ck => (planOf ck prevEnd).cost) c0 rest
    let plan := planOf c prevEnd
    let r := greedyRest planOf ((c0 :: rest).erase c) (plan.endArm.getD prevEnd)
    (plan.cost + r.1, (c, plan) :: r.2.1, r.2.2)
termination_by remaining.length
decreasing_by
  simp_wf
  have key : ∀ (l : List String) (x : String),
      minByCost (fun ck => (planOf ck prevEnd).cost) x l ∈ x :: l := by
    intro l
    induction l with
    | nil => simp [minByCost]
    | cons a t ih =>
      intro x
      simp only [minByCost, List.foldl_cons]
      by_cases h : (planOf a prevEnd).cost < (planOf x prevEnd).cost
      · simp only [if_pos h]
        have h1 := ih a
        simp only [minByCost] at h1
        exact List.mem_cons_of_mem x h1
      · simp only [if_neg h]
        have h1 := ih x
        simp only [minByCost] at h1
        rcases List.mem_cons.mp h1 with h2 | h2
        · exact List.mem_cons.mpr (Or.inl h2)
        · exact List.mem_cons.mpr (Or.inr (List.mem_cons_of_mem a h2))
  rw [List.length_erase_of_mem (key rest c0)]
  simp

/- One run of the greedy construction for a fixed `(start_arm, first_cage)`
choice. -/
def greedyFrom (planOf : String → Nat → Plan) (startArm : Nat)
    (firstCage : String) (cageNames : List String) :
    Nat × List (String × Plan) × Nat :=
  let plan := planOf firstCage startArm
  let r := greedyRest planOf (cageNames.erase firstCage) (plan.endArm.getD startArm)
  (plan.cost + r.1, (firstCage, plan) :: r.2.1, r.2.2)

/- `build_nonlearning_plan_cage_packs`: try every `start_arm` in (1,2,3) and
every first cage, keep the first strictly-cheapest arrangement including the
wrap-around penalty, then zip each chosen cage's animals with its plan's
colors.  On an empty roster Python crashes unpacking `best_solution = None`;
this embedding returns `([], [])` there and theorems assume a nonempty
roster. -/
def buildNonlearning (animals : List Animal) (exitMap : String → Nat) :
    List Animal × List (String × Nat) :=
  let cages := groupByCage animals
  let cageNames := cages.map Prod.fst
  let planOf : String → Nat → Plan :=
    fun c s => planCageDp ((cages.lookup c).getD []) (some s) exitMap
  let cands := arms.flatMap (fun s => cageNames.map (fun fc =>
    let r := greedyFrom planOf s fc cageNames
    (r.1 + (if r.2.2 = s then 0 else 1), r.2.1)))
  match cands with
  | [] => ([], [])
  | c :: rest =>
    let best := rest.foldl (fun b x => if x.1 < b.1 then x else b) c
    let pairs := best.2.flatMap
      (fun cp => ((cages.lookup cp.1).getD []).zip cp.2.colors)
    (pairs.map Prod.fst, pairs.map (fun p => (p.1.animalID, p.2)))

/- ------------------- day-table builder and endpoint ------------------- -/

/- All random draws of one schedule generation, as explicit oracles:
`shufWithin i` reorders the `i`-th (genotype, sex, cage) group,
`shufGroups` reorders the group list, `pri` is the balancer's tie-break
priority stream, and `coin k` / `shufPool k` are the coin flip and pool
shuffle of the `k`-th call to `generate_pseudorandom_sequence`. -/
structure Oracle where
  shufWithin : Nat → List Animal → List Animal
  shufGroups : List (List Animal) → List (List Animal)
  pri : Nat → Nat → Nat
  coin : Nat → Bool
  shufPool : Nat → List Nat → List Nat

/- `defaultdict(list)` keyed by (Genotype, Sex, Cage), keys in first-seen
order. -/
def groupByKey (animals : List Animal) :
    List ((String × String × String) × List Animal) :=
  animals.foldl
    (fun acc a =>
      let key := (a.genotype, a.sex, a.cage)
      if acc.any (fun p => p.1 = key) then
        acc.map (fun p => if p.1 = key then (p.1, p.2 ++ [a]) else p)
      else acc ++ [(key, [a])])
    []

/- `assign_balanced_exit_arms(animal_data)` with the two shuffles drawn from
the oracle. -/
def assignPipeline (O : Oracle) (animals : List Animal) : List (String × Nat) :=
  assignCore O.pri animals.length
    (O.shufGroups ((groupByKey animals).mapIdx (fun i p => O.shufWithin i p.2)))

structure Row where
  animalID : String
  tag : String
  sex : String
  genotype : String
  cage : String
  exitArm : Nat
  seq : List Nat
deriving DecidableEq, Repr

structure DayTable where
  day : Nat
  isLearning : Bool
  header : List String
  rows : List Row
deriving DecidableEq, Repr

def headerFor (n : Nat) : List String :=
  ["AnimalID", "Tag", "Sex", "Genotype", "Cage", "ExitArm"] ++
    (List.range n).map (fun i => "T" ++ toString (i + 1))

def generatePseudorandomSequence (O : Oracle) (k n armA armB : Nat)
    (avoid : Option Nat) : List Nat :=
  genSeqFrom avoid (O.shufPool k (mkPool n armA armB (O.coin k)))

/- One output row: `other = [1,2,3]; other.remove(exit_arm_today)` leaves the
two candidate start arms; the avoid-first arm is today's exit on learning
days and the learning exit on reversal days.  The catch-all branch mirrors
Python raising on `armA, armB = other` when today's exit is outside {1,2,3};
it is unreachable in the generated schedules. -/
def buildRow (O : Oracle) (k n : Nat) (inLearning : Bool)
    (exitMap : String → Nat) (perDay : String → Nat) (a : Animal) : Row :=
  let exitToday := perDay a.animalID
  match arms.erase exitToday with
  | [x, y] =>
    let avoid := if inLearning then exitToday else exitMap a.animalID
    ⟨a.animalID, a.tag, a.sex, a.genotype, a.cage, exitToday,
      generatePseudorandomSequence O k n x y (some avoid)⟩
  | _ => ⟨a.animalID, a.tag, a.sex, a.genotype, a.cage, exitToday, []⟩

/- `generate_day_tables`: learning days keep the roster order and the
balanced exits, reversal days run the cage-pack optimizer fresh from the base
roster; the `k`-th sequence-generator call of the run is indexed
deterministically by day and row. -/
def generateDayTables (O : Oracle) (animals : List Animal) (ld rd n : Nat)
    (exitMap : String → Nat) : List DayTable :=
  (List.range (ld + rd)).map (fun d =>
    let inL := d < ld
    let today : List Animal × (String → Nat) :=
      if inL then (animals, fun id => exitMap id)
      else
        let r := buildNonlearning animals exitMap
        (r.1, fun id => ((r.2).lookup id).getD 0)
    { day := d + 1, isLearning := inL, header := headerFor n,
      rows := today.1.mapIdx
        (fun i a => buildRow O (d * animals.length + i) n inL exitMap today.2 a) })

/- The request model of the backend, after pydantic coercion: `learning_days`
is declared `Field(..., gt=0)`, `reversal_days` `ge=0` and `trials_per_day`
`gt=0`. -/
structure ScheduleRequest where
  animals : List Animal
  learning_days : Nat
  reversal_days : Nat
  trials_per_day : Nat
  seed : Option Int
  use_example : Bool

/- Pydantic field validation (`ge=0` is vacuous on `Nat`). -/
def validRequest (r : ScheduleRequest) : Bool :=
  decide (0 < r.learning_days) && decide (0 < r.trials_per_day)

inductive ApiResponse where
  | ok (exitArmMap : List (String × Nat)) (dayTables : List DayTable)
  | clientError (msg : String)
deriving DecidableEq

def ApiResponse.isOk : ApiResponse → Bool
  | .ok _ _ => true
  | .clientError _ => false

def ApiResponse.exitIds : ApiResponse → List String
  | .ok m _ => m.map Prod.fst
  | .clientError _ => []

/- The `/generate-schedule` endpoint: pydantic validation, then
`random.seed(seed)` when a seed is given (modelled by replacing the ambient
oracle with one derived from the seed), then the example-data substitution
branch (`use_example or not request.animals` loads the bundled CSV, modelled
by the `exampleData` parameter standing for the file system), then the core
computation. -/
def generateSchedule (seedOracle : Int → Oracle)
    (exampleData : Option (List Animal)) (ambient : Oracle)
    (req : ScheduleRequest) : ApiResponse :=
  if validRequest req = false then .clientError "invalid parameters"
  else
    let O := match req.seed with
      | some s => seedOracle s
      | none => ambient
    match (if req.use_example ∨ req.animals = [] then exampleData
           else some req.animals) with
    | none => .clientError "Missing example dataset"
    | some data =>
      if data = [] then .clientError "No animals provided."
      else
        let exitPairs := assignPipeline O data
        .ok exitPairs
          (generateDayTables O data req.learning_days req.reversal_days
            req.trials_per_day (fun id => (exitPairs.lookup id).getD 0))

/- ------------------- verification-side notions ------------------- -/

/- A list of further picks that the backtracking search could accept from the
state `cur`: no pick is skipped by the avoid-first rule and every extension
passes the last-three check. -/
def GoodExt (avoid : Option Nat) : List Nat → List Nat → Prop
  | _, [] => True
  | cur, x :: xs =>
    ¬(cur = [] ∧ avoid = some x) ∧ validTail (cur ++ [x]) = true ∧
      GoodExt avoid (cur ++ [x]) xs

/- A sequence is feasible for a list of per-position allowed sets when it has
the same length and each entry lies in its position's allowed set. -/
def Feasible (allowed : List (List Nat)) (s : List Nat) : Prop :=
  List.Forall₂ (fun al c => c ∈ al) allowed s

/- The final DP layer `dp[m-1]`, reached by folding the propagation step. -/
def lastLayer (l : Layer) (rest : List (List Nat)) : Layer :=
  rest.foldl nextLayer l

/- Strict alternation starting with `x`: `cx` copies of `x` interleaved with
`cy` copies of `y` (trailing copies of `y` when `x` runs out).  Used only to
exhibit a valid arrangement in existence proofs. -/
def altseq (x y : Nat) (cx cy : Nat) : List Nat :=
  match cx with
  | 0 => List.replicate cy y
  | c + 1 => x :: altseq y x cy c
termination_by cx + cy
decreasing_by
  simp_wf
  omega

/- An explicit arrangement of `cA` copies of `armA` and `cB` copies of `armB`
with no triple repeat whose first element differs from `avoid`; it exists
whenever the counts differ by at most one and the total is at least two. -/
def mkValidArrangement (armA armB : Nat) (cA cB : Nat) (avoid : Option Nat) :
    List Nat :=
  if avoid = some armA then
    (if cA ≤ cB then altseq armB armA cB cA
     else armB :: armA :: armA :: altseq armB armA (cB - 1) (cA - 2))
  else
    (if cB ≤ cA then altseq armA armB cA cB
     else armA :: armB :: armB :: altseq armA armB (cA - 1) (cB - 2))

/- ------------------- concrete sample data ------------------- -/

/- Sample animals and oracles used by witnesses and counterexamples. -/
def exAnimal : Animal := ⟨"EX1", "extag", "Male", "wt", "cage9"⟩

def sampleA1 : Animal := ⟨"A1", "t1", "Male", "wt", "c1"⟩

def sampleA2 : Animal := ⟨"A2", "t2", "Male", "wt", "c1"⟩

def sampleB1 : Animal := ⟨"B1", "t3", "Female", "ko", "c2"⟩

/- Concrete requests used by witnesses and counterexamples. -/
def seededReq : ScheduleRequest :=
  ⟨[sampleA1, sampleB1], 1, 1, 2, some 7, false⟩

def emptyRosterReq : ScheduleRequest := ⟨[], 2, 1, 3, none, false⟩

def emptyRosterSeededReq : ScheduleRequest := ⟨[], 1, 1, 2, some 0, false⟩

def zeroLearnReq : ScheduleRequest := ⟨[sampleA1], 0, 0, 5, none, false⟩

def zeroLearnReq2 : ScheduleRequest := ⟨[sampleA1], 0, 3, 5, none, false⟩

/- A concrete learning-exit map used by witnesses. -/
def wExitMap : String → Nat := fun id => if id = "A1" then 1 else 2

/- An oracle whose draws leave everything in place. -/
def constOracle : Oracle :=
  ⟨fun _ l => l, fun l => l, fun _ _ => 0, fun _ => true, fun _ l => l⟩

/- A second, different ambient oracle (reverses everything it shuffles). -/
def altOracle : Oracle :=
  ⟨fun _ l => l.reverse, fun l => l.reverse, fun _ _ => 1, fun _ => false,
    fun _ l => l.reverse⟩

/- ===================== theorems ===================== -/

theorem minByCost_mem (f : String → Nat) :
    ∀ (l : List String) (x : String), minByCost f x l ∈ x :: l := by
  intro l
  induction l with
  | nil => simp [minByCost]
  | cons a t ih =>
    intro x
    simp only [minByCost, List.foldl_cons]
    by_cases h : f a < f x
    · simp only [if_pos h]
      have h1 := ih a
      simp only [minByCost] at h1
      exact List.mem_cons_of_mem x h1
    · simp only [if_neg h]
      have h1 := ih x
      simp only [minByCost] at h1
      rcases List.mem_cons.mp h1 with h2 | h2
      · exact List.mem_cons.mpr (Or.inl h2)
      · exact List.mem_cons.mpr (Or.inr (List.mem_cons_of_mem a h2))

theorem buildRow_animalID (O : Oracle) (k n : Nat) (inL : Bool)
    (em pd : String → Nat) (a : Animal) :
    (buildRow O k n inL em pd a).animalID = a.animalID := by
  rcases h : arms.erase (pd a.animalID) with _ | ⟨x, _ | ⟨y, _ | t⟩⟩ <;>
    simp [buildRow, h]

theorem buildRow_exitArm (O : Oracle) (k n : Nat) (inL : Bool)
    (em pd : String → Nat) (a : Animal) :
    (buildRow O k n inL em pd a).exitArm = pd a.animalID := by
  rcases h : arms.erase (pd a.animalID) with _ | ⟨x, _ | ⟨y, _ | t⟩⟩ <;>
    simp [buildRow, h]

theorem rowsProj (O : Oracle) (n : Nat) (inL : Bool) (em pd : String → Nat) :
    ∀ (l : List Animal) (k0 : Nat),
      (l.mapIdx (fun i a => buildRow O (k0 + i) n inL em pd a)).map
          (fun r => (r.animalID, r.exitArm)) =
        l.map (fun a => (a.animalID, pd a.animalID)) := by
  intro l
  induction l with
  | nil => intro k0; rfl
  | cons a t ih =>
    intro k0
    rw [List.mapIdx_cons, List.map_cons, List.map_cons]
    congr 1
    · rw [buildRow_animalID, buildRow_exitArm]
    · have hfun : (fun i b => buildRow O (k0 + (i + 1)) n inL em pd b) =
          (fun i b => buildRow O ((k0 + 1) + i) n inL em pd b) := by
        funext i b
        congr 1
        omega
      rw [hfun, ih (k0 + 1)]

/-- C10: `build_nonlearning_plan_cage_packs` consumes no randomness, so within
one generated schedule every reversal day carries the identical animal
ordering and identical per-animal exit arms (stated across two arbitrary
oracles and two arbitrary reversal days); only the trial start-arm sequences
may differ. -/
theorem claim_C10_reversal_days_identical (O1 O2 : Oracle)
    (animals : List Animal) (ld rd n : Nat) (em : String → Nat)
    (d1 d2 : Nat) (t1 t2 : DayTable) (h1 : ld ≤ d1) (h2 : ld ≤ d2)
    (hg1 : (generateDayTables O1 animals ld rd n em)[d1]? = some t1)
    (hg2 : (generateDayTables O2 animals ld rd n em)[d2]? = some t2) :
    t1.rows.map (fun r => (r.animalID, r.exitArm)) =
      t2.rows.map (fun r => (r.animalID, r.exitArm)) := by
  have key : ∀ (O : Oracle) (d : Nat) (t : DayTable), ld ≤ d →
      (generateDayTables O animals ld rd n em)[d]? = some t →
      t.rows.map (fun r => (r.animalID, r.exitArm)) =
        (buildNonlearning animals em).1.map
          (fun a => (a.animalID,
            ((((buildNonlearning animals em).2).lookup a.animalID).getD 0))) := by
    intro O d t hle hget
    have hd : d < ld + rd := by
      by_contra hcon
      rw [generateDayTables, List.getElem?_map,
        List.getElem?_eq_none (by simpa using Nat.le_of_not_lt hcon)] at hget
      simp at hget
    rw [generateDayTables, List.getElem?_map, List.getElem?_range hd] at hget
    simp only [Option.map_some', Option.some_inj] at hget
    subst hget
    dsimp only
    rw [if_neg (Nat.not_lt.mpr hle)]
    exact rowsProj O n _ em _ (buildNonlearning animals em).1
      (d * animals.length)
  rw [key O1 d1 t1 h1 hg1, key O2 d2 t2 h2 hg2]

/-- Witness for C10 at a concrete schedule: two different oracles and the two
reversal days of a 1-learning, 2-reversal schedule over three animals. -/
theorem claim_C10_witness :
    1 ≤ 1 ∧ 1 ≤ 2 ∧
    ∃ t1 t2 : DayTable,
      (generateDayTables constOracle [sampleA1, sampleA2, sampleB1] 1 2 3
          (fun _ => 1))[1]? = some t1 ∧
      (generateDayTables altOracle [sampleA1, sampleA2, sampleB1] 1 2 3
          (fun _ => 1))[2]? = some t2 ∧
      t1.rows.map (fun r => (r.animalID, r.exitArm)) =
        t2.rows.map (fun r => (r.animalID, r.exitArm)) := by
  refine ⟨Nat.le_refl 1, by omega, ?_⟩
  refine ⟨_, _, rfl, rfl, ?_⟩
  exact claim_C10_reversal_days_identical constOracle altOracle
    [sampleA1, sampleA2, sampleB1] 1 2 3 (fun _ => 1) 1 2 _ _
    (Nat.le_refl 1) (by omega) rfl rfl

/-- C6: two calls of `generate_schedule` with identical inputs and the same
explicit seed produce identical responses (exit-arm map and full day tables),
whatever the ambient pre-call generator state. -/
theorem claim_C6_seed_determinism (seedOracle : Int → Oracle)
    (exampleData : Option (List Animal)) (amb1 amb2 : Oracle)
    (req : ScheduleRequest) (s : Int) (hs : req.seed = some s) :
    generateSchedule seedOracle exampleData amb1 req =
      generateSchedule seedOracle exampleData amb2 req := by
  unfold generateSchedule
  rw [hs]

/-- Witness for C6: a concrete seeded request evaluated against two different
ambient oracles. -/
theorem claim_C6_witness :
    seededReq.seed = some 7 ∧
    generateSchedule (fun _ => constOracle) none constOracle seededReq =
      generateSchedule (fun _ => constOracle) none altOracle seededReq := by
  refine ⟨rfl, ?_⟩
  exact claim_C6_seed_determinism (fun _ => constOracle) none constOracle
    altOracle seededReq 7 rfl

/-- C7 fails on the code: an empty animal list is not rejected; the backend
substitutes the bundled example dataset (read from a file, here the
`exampleData` parameter standing for the file system) and schedules it. At
this concrete input the response is a success whose exit-arm map covers the
example animal, not the (empty) request roster. -/
theorem claim_C7_counterexample :
    emptyRosterSeededReq.animals = [] ∧
    (generateSchedule (fun _ => constOracle) (some [exAnimal]) constOracle
        emptyRosterSeededReq).isOk = true ∧
    (generateSchedule (fun _ => constOracle) (some [exAnimal]) constOracle
        emptyRosterSeededReq).exitIds = ["EX1"] := by
  refine ⟨rfl, rfl, rfl⟩

/-- C7 amended: a validated request with an empty animal list is never
scheduled as-is — the backend substitutes the bundled example dataset when it
is available and rejects the request only when that dataset is missing. -/
theorem claim_C7_empty_roster_substitution (seedOracle : Int → Oracle)
    (amb : Oracle) (req : ScheduleRequest) (hreq : req.animals = [])
    (hvalid : validRequest req = true) :
    generateSchedule seedOracle none amb req =
        .clientError "Missing example dataset" ∧
    ∀ d : List Animal, d ≠ [] →
      (generateSchedule seedOracle (some d) amb req).isOk = true := by
  constructor
  · unfold generateSchedule
    rw [hvalid]
    simp [hreq]
  · intro d hd
    unfold generateSchedule
    rw [hvalid]
    simp [hreq, hd, ApiResponse.isOk]

/-- Witness for the amended C7 at a concrete empty-roster request. -/
theorem claim_C7_witness :
    emptyRosterReq.animals = [] ∧ validRequest emptyRosterReq = true ∧
    (generateSchedule (fun _ => constOracle) none altOracle emptyRosterReq =
        .clientError "Missing example dataset" ∧
      ∀ d : List Animal, d ≠ [] →
        (generateSchedule (fun _ => constOracle) (some d) altOracle
            emptyRosterReq).isOk = true) := by
  refine ⟨rfl, rfl, ?_⟩
  exact claim_C7_empty_roster_substitution (fun _ => constOracle) altOracle
    emptyRosterReq rfl rfl

/-- C8 fails on the code: the request model declares
`learning_days: Field(..., gt=0)`, so `learning_days = 0` is rejected by
validation rather than accepted; shown at a concrete request. -/
theorem claim_C8_counterexample :
    zeroLearnReq.learning_days = 0 ∧ validRequest zeroLearnReq = false ∧
    generateSchedule (fun _ => constOracle) none constOracle zeroLearnReq =
      .clientError "invalid parameters" := by
  refine ⟨rfl, rfl, rfl⟩

/-- C8 amended: `generate_schedule` rejects `learning_days = 0` (the field is
declared strictly positive), while the underlying `generate_day_tables`
itself does return an empty sequence of day tables whenever
`learning_days + reversal_days == 0`. -/
theorem claim_C8_zero_days (r : ScheduleRequest) (hr : r.learning_days = 0)
    (O : Oracle) (animals : List Animal) (ld rd n : Nat)
    (em : String → Nat) (hsum : ld + rd = 0) :
    validRequest r = false ∧ generateDayTables O animals ld rd n em = [] := by
  constructor
  · simp [validRequest, hr]
  · simp [generateDayTables, hsum]

/-- Witness for the amended C8. -/
theorem claim_C8_witness :
    zeroLearnReq2.learning_days = 0 ∧ (0 : Nat) + 0 = 0 ∧
    (validRequest zeroLearnReq2 = false ∧
      generateDayTables constOracle [sampleA1, sampleB1] 0 0 4
        (fun _ => 1) = []) := by
  refine ⟨rfl, rfl, ?_⟩
  exact claim_C8_zero_days zeroLearnReq2 rfl constOracle [sampleA1, sampleB1]
    0 0 4 (fun _ => 1) rfl

/- ------------------- lemmas about the triple-repeat checks --------------- -/

theorem noTriple_prefix : ∀ (l r : List Nat),
    noTriple (l ++ r) = true → noTriple l = true := by
  intro l
  induction l with
  | nil => intro r _; rfl
  | cons a l' ih =>
    intro r h
    cases l' with
    | nil => rfl
    | cons b l'' =>
      cases l'' with
      | nil => rfl
      | cons c t =>
        simp only [List.cons_append] at h
        simp only [noTriple, Bool.and_eq_true] at h ⊢
        exact ⟨h.1, ih r (by simpa using h.2)⟩

theorem validTail_cons (a : Nat) (l : List Nat) (h : 3 ≤ l.length) :
    validTail (a :: l) = validTail l := by
  obtain ⟨p, t1, h1⟩ : ∃ p t1, l.reverse = p :: t1 := by
    cases h1 : l.reverse with
    | nil =>
      rw [List.reverse_eq_nil_iff] at h1
      subst h1
      simp at h
    | cons p t1 => exact ⟨p, t1, rfl⟩
  obtain ⟨q, t2, h2⟩ : ∃ q t2, t1 = q :: t2 := by
    cases h2 : t1 with
    | nil =>
      have := congrArg List.length h1
      simp [h2] at this
      omega
    | cons q t2 => exact ⟨q, t2, rfl⟩
  obtain ⟨r, t3, h3⟩ : ∃ r t3, t2 = r :: t3 := by
    cases h3 : t2 with
    | nil =>
      have := congrArg List.length h1
      simp [h2, h3] at this
      omega
    | cons r t3 => exact ⟨r, t3, rfl⟩
  subst h2
  subst h3
  have hrev : (a :: l).reverse = p :: q :: r :: (t3 ++ [a]) := by
    rw [List.reverse_cons, h1]
    simp
  simp only [validTail, hrev, h1]

theorem noTriple_snoc : ∀ (l : List Nat) (x : Nat),
    noTriple (l ++ [x]) = (noTriple l && validTail (l ++ [x])) := by
  intro l
  induction l with
  | nil => intro x; rfl
  | cons a l' ih =>
    intro x
    cases l' with
    | nil => rfl
    | cons b l'' =>
      cases l'' with
      | nil =>
        show noTriple [a, b, x] = (noTriple [a, b] && validTail [a, b, x])
        have hv : validTail [a, b, x] = !(x == b && b == a) := rfl
        have hn : noTriple [a, b, x] = !(a == b && b == x) := by
          simp [noTriple]
        rw [hv, hn]
        show (!(a == b && b == x)) = (true && !(x == b && b == a))
        simp only [Bool.true_and]
        have hx : (a == b && b == x) = (x == b && b == a) := by
          by_cases h1 : a = b
          · by_cases h2 : b = x
            · rw [h1, h2]
            · have e1 : (b == x) = false := by simp [h2]
              have e2 : (x == b) = false := by simp [Ne.symm h2]
              rw [e1, e2, Bool.and_false, Bool.false_and]
          · have e1 : (a == b) = false := by simp [h1]
            have e2 : (b == a) = false := by simp [Ne.symm h1]
            rw [e1, e2, Bool.and_false, Bool.false_and]
        rw [hx]
      | cons c t =>
        simp only [List.cons_append] at ih ⊢
        have hlhs : noTriple (a :: b :: c :: (t ++ [x])) =
            ((!(a == b && b == c)) && noTriple (b :: c :: (t ++ [x]))) := by
          simp [noTriple]
        have hrhs : noTriple (a :: b :: c :: t) =
            ((!(a == b && b == c)) && noTriple (b :: c :: t)) := by
          simp [noTriple]
        rw [hlhs, hrhs, ih x,
          validTail_cons a (b :: c :: (t ++ [x])) (by simp), Bool.and_assoc]

theorem noTriple_cons (a : Nat) (l : List Nat) (hl : noTriple l = true)
    (hw : ∀ b c t, l = b :: c :: t → ¬(a = b ∧ b = c)) :
    noTriple (a :: l) = true := by
  cases l with
  | nil => rfl
  | cons b l' =>
    cases l' with
    | nil => rfl
    | cons c t =>
      have hbool : (a == b && b == c) = false := by
        by_cases h1 : a = b
        · by_cases h2 : b = c
          · exact absurd ⟨h1, h2⟩ (hw b c t rfl)
          · simp [h2]
        · simp [h1]
      simp [noTriple, hbool]
      simpa [noTriple] using hl

theorem validTail_of_noTriple_snoc (l : List Nat) (x : Nat)
    (h : noTriple (l ++ [x]) = true) : validTail (l ++ [x]) = true := by
  rw [noTriple_snoc, Bool.and_eq_true] at h
  exact h.2

/- ------------------- backtracking search: soundness ------------------- -/

theorem perm_get_cons_eraseIdx (l : List Nat) (i : Nat) (h : i < l.length) :
    List.Perm (l.get ⟨i, h⟩ :: l.eraseIdx i) l := by
  have hd : l = List.take i l ++ l.get ⟨i, h⟩ :: List.drop (i + 1) l := by
    rw [List.get_eq_getElem, List.getElem_cons_drop, List.take_append_drop]
  rw [List.eraseIdx_eq_take_drop_succ]
  have hp := (@List.perm_middle Nat (l.get ⟨i, h⟩) (List.take i l)
    (List.drop (i + 1) l)).symm
  rw [← hd] at hp
  exact hp

theorem backtrack_sound (avoid : Option Nat) :
    ∀ (cur items : List Nat) (i : Nat), ∀ out : List Nat,
      backtrack avoid cur items i = some out →
      List.Perm out (cur ++ items) ∧
      (noTriple cur = true → noTriple out = true) ∧
      (∃ t, out = cur ++ t) ∧
      (cur = [] → ∀ z, avoid = some z → out.head? ≠ some z) := by
  intro cur items i
  induction cur, items, i using backtrack.induct avoid with
  | case1 cur i =>
    intro out hout
    rw [backtrack] at hout
    simp only [if_pos trivial, Option.some_inj] at hout
    subst hout
    refine ⟨by simp, fun h => h, ⟨[], by simp⟩, ?_⟩
    intro hc z hz
    subst hc
    simp
  | case2 cur items i hne h cand hskip ih =>
    intro out hout
    rw [backtrack] at hout
    simp only [if_neg hne, dif_pos h] at hout
    rw [if_pos hskip] at hout
    exact ih out hout
  | case3 cur items i hne h cand hskip hvalid out0 hbt ih =>
    intro out hout
    rw [backtrack] at hout
    simp only [if_neg hne, dif_pos h] at hout
    rw [if_neg hskip, if_pos hvalid, hbt] at hout
    obtain ⟨hperm0, hnt0, ⟨t0, ht0⟩, _⟩ := ih out0 hbt
    have hout' : out = out0 := by
      cases hout
      rfl
    subst hout'
    refine ⟨?_, ?_, ?_, ?_⟩
    · refine hperm0.trans ?_
      rw [List.append_assoc]
      exact List.Perm.append_left cur
        (by simpa using perm_get_cons_eraseIdx items i h)
    · intro hcur
      apply hnt0
      rw [noTriple_snoc, hcur, hvalid]
      rfl
    · exact ⟨[cand] ++ t0, by rw [ht0, List.append_assoc]⟩
    · intro hc z hz hcontra
      rw [ht0, hc] at hcontra
      simp only [List.nil_append, List.cons_append, List.head?_cons,
        Option.some_inj] at hcontra
      apply hskip
      exact ⟨hc, by rw [hz, hcontra]⟩
  | case4 cur items i hne h cand hskip hvalid hbt ih ih2 =>
    intro out hout
    rw [backtrack] at hout
    simp only [if_neg hne, dif_pos h] at hout
    rw [if_neg hskip, if_pos hvalid, hbt] at hout
    exact ih2 out hout
  | case5 cur items i hne h cand hskip hinvalid ih =>
    intro out hout
    rw [backtrack] at hout
    simp only [if_neg hne, dif_pos h] at hout
    rw [if_neg hskip, if_neg hinvalid] at hout
    exact ih out hout
  | case6 cur items i hne hge =>
    intro out hout
    rw [backtrack] at hout
    simp only [if_neg hne, dif_neg hge] at hout
    exact Option.noConfusion hout

/- ------------------- backtracking search: completeness ------------------- -/

theorem backtrack_some_of_branch (avoid : Option Nat) (items cur : List Nat)
    (j : Nat) (hj : j < items.length)
    (hskip : ¬(cur = [] ∧ avoid = some (items.get ⟨j, hj⟩)))
    (hvalid : validTail (cur ++ [items.get ⟨j, hj⟩]) = true)
    (hrec : backtrack avoid (cur ++ [items.get ⟨j, hj⟩]) (items.eraseIdx j) 0
      ≠ none) :
    ∀ i, i ≤ j → backtrack avoid cur items i ≠ none := by
  have hne : items ≠ [] := by
    intro hcon
    subst hcon
    simp at hj
  have main : ∀ k i, i ≤ j → j - i = k → backtrack avoid cur items i ≠ none := by
    intro k
    induction k with
    | zero =>
      intro i hij hk
      have hij' : i = j := by omega
      subst hij'
      rw [backtrack]
      simp only [if_neg hne, dif_pos hj]
      rw [if_neg hskip, if_pos hvalid]
      rcases hbt : backtrack avoid (cur ++ [items.get ⟨i, hj⟩])
          (items.eraseIdx i) 0 with _ | s
      · exact absurd hbt hrec
      · simp
    | succ k ih =>
      intro i hij hk
      have hi : i < items.length := by omega
      rw [backtrack]
      simp only [if_neg hne, dif_pos hi]
      by_cases hc1 : cur = [] ∧ avoid = some (items.get ⟨i, hi⟩)
      · rw [if_pos hc1]
        exact ih (i + 1) (by omega) (by omega)
      · rw [if_neg hc1]
        by_cases hc2 : validTail (cur ++ [items.get ⟨i, hi⟩]) = true
        · rw [if_pos hc2]
          rcases hbt : backtrack avoid (cur ++ [items.get ⟨i, hi⟩])
              (items.eraseIdx i) 0 with _ | s
          · exact ih (i + 1) (by omega) (by omega)
          · simp
        · rw [if_neg hc2]
          exact ih (i + 1) (by omega) (by omega)
  intro i hij
  exact main (j - i) i hij rfl

theorem backtrack_complete (avoid : Option Nat) :
    ∀ (N : Nat) (items cur rest : List Nat), items.length = N →
      List.Perm rest items → GoodExt avoid cur rest →
      backtrack avoid cur items 0 ≠ none := by
  intro N
  induction N using Nat.strong_induction_on with
  | _ N ih =>
    intro items cur rest hlen hperm hgood
    cases items with
    | nil =>
      rw [backtrack]
      simp
    | cons y ys =>
      have hrne : rest ≠ [] := by
        intro hcon
        subst hcon
        have := hperm.length_eq
        simp at this
      obtain ⟨x, xs, hrx⟩ := List.exists_cons_of_ne_nil hrne
      subst hrx
      have hx : x ∈ y :: ys := hperm.mem_iff.mp (List.mem_cons_self x xs)
      obtain ⟨⟨j, hj⟩, hget⟩ := List.mem_iff_get.mp hx
      obtain ⟨hg1, hg2, hg3⟩ := hgood
      apply backtrack_some_of_branch avoid (y :: ys) cur j hj
      · rw [hget]
        exact hg1
      · rw [hget]
        exact hg2
      · rw [hget]
        have hlt : ((y :: ys).eraseIdx j).length < N := by
          rw [List.length_eraseIdx, if_pos hj]
          have hN : (y :: ys).length = N := hlen
          simp at hN
          omega
        apply ih _ hlt ((y :: ys).eraseIdx j) (cur ++ [x]) xs rfl ?_ hg3
        have hp : List.Perm (x :: xs) (x :: (y :: ys).eraseIdx j) := by
          refine hperm.trans ?_
          have hpp := perm_get_cons_eraseIdx (y :: ys) j hj
          rw [hget] at hpp
          exact hpp.symm
        exact hp.cons_inv
      · exact Nat.zero_le j

theorem goodExt_of_noTriple (avoid : Option Nat) :
    ∀ (rest cur : List Nat), noTriple (cur ++ rest) = true →
      (cur = [] → ∀ z, avoid = some z → rest.head? ≠ some z) →
      GoodExt avoid cur rest := by
  intro rest
  induction rest with
  | nil =>
    intro cur _ _
    trivial
  | cons x xs ih =>
    intro cur hnt hhead
    refine ⟨?_, ?_, ?_⟩
    · rintro ⟨hc, ha⟩
      exact hhead hc x ha (by simp)
    · apply validTail_of_noTriple_snoc
      apply noTriple_prefix (cur ++ [x]) xs
      simpa [List.append_assoc] using hnt
    · apply ih (cur ++ [x])
      · simpa [List.append_assoc] using hnt
      · intro hc
        exact absurd hc (by simp)

/- ------------------- existence of valid arrangements ------------------- -/

theorem altseq_count (z : Nat) :
    ∀ (k cx cy x y : Nat), cx + cy = k → x ≠ y →
      (altseq x y cx cy).count z =
        (if z = x then cx else 0) + (if z = y then cy else 0) := by
  intro k
  induction k using Nat.strong_induction_on with
  | _ k ih =>
    intro cx cy x y hk hxy
    cases cx with
    | zero =>
      rw [altseq, List.count_replicate]
      split_ifs <;> simp_all
    | succ c =>
      rw [altseq, List.count_cons,
        ih (cy + c) (by omega) cy c y x rfl hxy.symm]
      split_ifs <;> simp_all

theorem altseq_noTriple :
    ∀ (k cx cy x y : Nat), cx + cy = k → x ≠ y → cy ≤ cx + 1 → cx ≤ cy + 2 →
      noTriple (altseq x y cx cy) = true := by
  intro k
  induction k using Nat.strong_induction_on with
  | _ k ih =>
    intro cx cy x y hk hxy h1 h2
    cases cx with
    | zero =>
      rw [altseq]
      cases cy with
      | zero => rfl
      | succ cy' =>
        cases cy' with
        | zero => rfl
        | succ cy'' => omega
    | succ c =>
      rw [altseq]
      apply noTriple_cons
      · exact ih (cy + c) (by omega) cy c y x rfl hxy.symm (by omega) (by omega)
      · intro b cc t heq hcontra
        cases hcy : cy with
        | zero =>
          rw [hcy, altseq] at heq
          have hlen := congrArg List.length heq
          simp at hlen
          omega
        | succ cy' =>
          rw [hcy, altseq] at heq
          have hb : y = b := (List.cons.injEq _ _ _ _).mp heq |>.1
          exact hxy (hcontra.1.trans hb.symm)

theorem altseq_nil_of_zero (x y : Nat) : altseq x y 0 0 = [] := by
  rw [altseq]
  rfl

theorem altseq_head_succ (x y c cy : Nat) :
    altseq x y (c + 1) cy = x :: altseq y x cy c := by
  rw [altseq]

theorem mkValid_count (z armA armB cA cB : Nat) (avoid : Option Nat)
    (hab : armA ≠ armB) (hn : 2 ≤ cA + cB) (hd1 : cA ≤ cB + 1)
    (hd2 : cB ≤ cA + 1) :
    (mkValidArrangement armA armB cA cB avoid).count z =
      (if z = armA then cA else 0) + (if z = armB then cB else 0) := by
  unfold mkValidArrangement
  by_cases h1 : avoid = some armA
  · rw [if_pos h1]
    by_cases h2 : cA ≤ cB
    · rw [if_pos h2, altseq_count z (cB + cA) cB cA armB armA rfl
        (Ne.symm hab)]
      split_ifs <;> simp_all
    · rw [if_neg h2, List.count_cons, List.count_cons, List.count_cons,
        altseq_count z ((cB - 1) + (cA - 2)) (cB - 1) (cA - 2) armB armA rfl
          (Ne.symm hab)]
      split_ifs <;> simp_all <;> omega
  · rw [if_neg h1]
    by_cases h2 : cB ≤ cA
    · rw [if_pos h2,
        altseq_count z (cA + cB) cA cB armA armB rfl hab]
    · rw [if_neg h2, List.count_cons, List.count_cons, List.count_cons,
        altseq_count z ((cA - 1) + (cB - 2)) (cA - 1) (cB - 2) armA armB rfl
          hab]
      split_ifs <;> simp_all <;> omega

theorem mkValid_noTriple (armA armB cA cB : Nat) (avoid : Option Nat)
    (hab : armA ≠ armB) (hn : 2 ≤ cA + cB) (hd1 : cA ≤ cB + 1)
    (hd2 : cB ≤ cA + 1) :
    noTriple (mkValidArrangement armA armB cA cB avoid) = true := by
  have main : ∀ (x y cx cy : Nat), x ≠ y → 2 ≤ cx + cy → cy ≤ cx + 1 →
      cx ≤ cy + 1 → ¬ cy ≤ cx →
      noTriple (x :: y :: y :: altseq x y (cx - 1) (cy - 2)) = true := by
    intro x y cx cy hxy h2 hb1 hb2 hlt
    have hcy : cy = cx + 1 := by omega
    have hcx : 1 ≤ cx := by omega
    have hk : cy - 2 = cx - 1 := by omega
    have htail : noTriple (altseq x y (cx - 1) (cy - 2)) = true :=
      altseq_noTriple ((cx - 1) + (cy - 2)) (cx - 1) (cy - 2) x y rfl hxy
        (by omega) (by omega)
    have hshape : altseq x y (cx - 1) (cy - 2) = [] ∨
        ∃ t, altseq x y (cx - 1) (cy - 2) = x :: t := by
      cases hc : cx - 1 with
      | zero =>
        left
        have hz : cy - 2 = 0 := by omega
        rw [hz, altseq_nil_of_zero]
      | succ c' =>
        right
        rw [altseq_head_succ]
        exact ⟨altseq y x (cy - 2) c', rfl⟩
    apply noTriple_cons
    · apply noTriple_cons
      · apply noTriple_cons
        · exact htail
        · intro b c t heq hcon
          rcases hshape with hsh | ⟨t2, hsh⟩
          · rw [hsh] at heq
            exact List.noConfusion heq
          · rw [hsh] at heq
            have hb : x = b := ((List.cons.injEq _ _ _ _).mp heq).1
            have hxe : y = x := hcon.1.trans hb.symm
            exact hxy hxe.symm
      · intro b c t heq hcon
        have hb : y = b := ((List.cons.injEq _ _ _ _).mp heq).1
        have hrest := ((List.cons.injEq _ _ _ _).mp heq).2
        rcases hshape with hsh | ⟨t2, hsh⟩
        · rw [hsh] at hrest
          exact List.noConfusion hrest
        · rw [hsh] at hrest
          have hc : x = c := ((List.cons.injEq _ _ _ _).mp hrest).1
          have hxe : x = y := hc.trans (hcon.2.symm.trans hb.symm)
          exact hxy hxe
    · intro b c t heq hcon
      have hb : y = b := ((List.cons.injEq _ _ _ _).mp heq).1
      exact hxy (hcon.1.trans hb.symm)
  unfold mkValidArrangement
  by_cases h1 : avoid = some armA
  · rw [if_pos h1]
    by_cases h2 : cA ≤ cB
    · rw [if_pos h2]
      exact altseq_noTriple (cB + cA) cB cA armB armA rfl (Ne.symm hab)
        (by omega) (by omega)
    · rw [if_neg h2]
      exact main armB armA cB cA (Ne.symm hab) (by omega) (by omega)
        (by omega) (by omega)
  · rw [if_neg h1]
    by_cases h2 : cB ≤ cA
    · rw [if_pos h2]
      exact altseq_noTriple (cA + cB) cA cB armA armB rfl hab
        (by omega) (by omega)
    · rw [if_neg h2]
      exact main armA armB cA cB hab (by omega) (by omega) (by omega)
        (by omega)

theorem mkValid_head (armA armB cA cB : Nat) (avoid : Option Nat)
    (hab : armA ≠ armB) (hn : 2 ≤ cA + cB) (hd1 : cA ≤ cB + 1)
    (hd2 : cB ≤ cA + 1) :
    ∀ z, avoid = some z →
      (mkValidArrangement armA armB cA cB avoid).head? ≠ some z := by
  intro z hz
  unfold mkValidArrangement
  by_cases h1 : avoid = some armA
  · have hzA : z = armA := by
      rw [h1] at hz
      exact (Option.some_inj.mp hz.symm)
    rw [if_pos h1]
    by_cases h2 : cA ≤ cB
    · rw [if_pos h2]
      have hcb : 1 ≤ cB := by omega
      obtain ⟨k, hk⟩ : ∃ k, cB = k + 1 := ⟨cB - 1, by omega⟩
      rw [hk, altseq_head_succ]
      intro hcon
      simp only [List.head?_cons, Option.some_inj] at hcon
      exact hab (hcon.trans hzA).symm
    · rw [if_neg h2]
      intro hcon
      simp only [List.head?_cons, Option.some_inj] at hcon
      exact hab (hcon.trans hzA).symm
  · have hzA : z ≠ armA := by
      intro hcon
      exact h1 (by rw [hz, hcon])
    rw [if_neg h1]
    by_cases h2 : cB ≤ cA
    · rw [if_pos h2]
      have hca : 1 ≤ cA := by omega
      obtain ⟨k, hk⟩ : ∃ k, cA = k + 1 := ⟨cA - 1, by omega⟩
      rw [hk, altseq_head_succ]
      intro hcon
      simp only [List.head?_cons, Option.some_inj] at hcon
      exact hzA hcon.symm
    · rw [if_neg h2]
      intro hcon
      simp only [List.head?_cons, Option.some_inj] at hcon
      exact hzA hcon.symm

/- ------------------- pool facts ------------------- -/

theorem mkPool_length (n armA armB : Nat) (coin : Bool) :
    (mkPool n armA armB coin).length = n := by
  unfold mkPool
  by_cases hp : n % 2 = 1 <;> cases coin <;> simp [hp] <;> omega

theorem mkPool_count_left (n armA armB : Nat) (coin : Bool)
    (hab : armA ≠ armB) :
    (mkPool n armA armB coin).count armA =
      n / 2 + (if n % 2 = 1 ∧ coin then 1 else 0) := by
  unfold mkPool
  rw [List.count_append, List.count_replicate, List.count_replicate]
  have e1 : (armA == armA) = true := by simp
  have e2 : (armB == armA) = false := by simp [Ne.symm hab]
  rw [e1, e2]
  simp

theorem mkPool_count_right (n armA armB : Nat) (coin : Bool)
    (hab : armA ≠ armB) :
    (mkPool n armA armB coin).count armB =
      n / 2 + (if n % 2 = 1 ∧ ¬coin then 1 else 0) := by
  unfold mkPool
  rw [List.count_append, List.count_replicate, List.count_replicate]
  have e1 : (armB == armB) = true := by simp
  have e2 : (armA == armB) = false := by simp [hab]
  rw [e1, e2]
  simp

theorem mkPool_count_other (n armA armB z : Nat) (coin : Bool)
    (hz1 : z ≠ armA) (hz2 : z ≠ armB) :
    (mkPool n armA armB coin).count z = 0 := by
  unfold mkPool
  rw [List.count_append, List.count_replicate, List.count_replicate]
  have e1 : (armA == z) = false := by simp [Ne.symm hz1]
  have e2 : (armB == z) = false := by simp [Ne.symm hz2]
  rw [e1, e2]
  simp

/-- C9: for at least two trials over two distinct arms, whatever the coin
flip, pool shuffle and avoid-first arm, the backtracking search always finds
a valid arrangement, so the raw-pool fallback branch is unreachable (it can
only be taken when the trial count is at most 1). -/
theorem claim_C9_no_fallback (n armA armB : Nat) (coin : Bool)
    (avoid : Option Nat) (shuffled : List Nat) (hn : 2 ≤ n)
    (hab : armA ≠ armB)
    (hperm : List.Perm shuffled (mkPool n armA armB coin)) :
    backtrack avoid [] shuffled 0 ≠ none := by
  set cA : Nat := n / 2 + (if n % 2 = 1 ∧ coin then 1 else 0) with hcadef
  set cB : Nat := n / 2 + (if n % 2 = 1 ∧ ¬coin then 1 else 0) with hcbdef
  have hsum : cA + cB = n := by
    rw [hcadef, hcbdef]
    by_cases hp : n % 2 = 1 <;> cases coin <;> simp [hp] <;> omega
  have h2 : 2 ≤ cA + cB := by omega
  have hd1 : cA ≤ cB + 1 := by
    rw [hcadef, hcbdef]
    split_ifs <;> omega
  have hd2 : cB ≤ cA + 1 := by
    rw [hcadef, hcbdef]
    split_ifs <;> omega
  have hwp : List.Perm (mkValidArrangement armA armB cA cB avoid) shuffled := by
    rw [List.perm_iff_count]
    intro z
    rw [mkValid_count z armA armB cA cB avoid hab h2 hd1 hd2,
      List.perm_iff_count.mp hperm z]
    by_cases hz1 : z = armA
    · subst hz1
      rw [mkPool_count_left n z armB coin hab]
      simp [hab, hcadef]
    · by_cases hz2 : z = armB
      · subst hz2
        rw [mkPool_count_right n armA z coin hab]
        simp [hz1, hcbdef]
      · rw [mkPool_count_other n armA armB z coin hz1 hz2]
        simp [hz1, hz2]
  have hgood : GoodExt avoid [] (mkValidArrangement armA armB cA cB avoid) := by
    apply goodExt_of_noTriple
    · simpa using mkValid_noTriple armA armB cA cB avoid hab h2 hd1 hd2
    · intro _ z hz
      exact mkValid_head armA armB cA cB avoid hab h2 hd1 hd2 z hz
  exact backtrack_complete avoid shuffled.length shuffled []
    (mkValidArrangement armA armB cA cB avoid) rfl hwp hgood

/-- Witness for C9: four trials over arms 1 and 2 with avoid-first 1 and an
identity shuffle. -/
theorem claim_C9_witness :
    2 ≤ 4 ∧ (1 : Nat) ≠ 2 ∧
    List.Perm [1, 1, 2, 2] (mkPool 4 1 2 true) ∧
    backtrack (some 1) [] [1, 1, 2, 2] 0 ≠ none := by
  refine ⟨by omega, by decide, by decide, ?_⟩
  exact claim_C9_no_fallback 4 1 2 true (some 1) [1, 1, 2, 2] (by omega)
    (by decide) (by decide)

/-- C5: every generated sequence over two distinct arms has length `n` and
per-arm counts differing by at most 1; and when the fallback is not taken
(the search returned a non-empty arrangement), the sequence has no three
consecutive equal values and does not start with the avoid-first arm. -/
theorem claim_C5_generator_properties (n armA armB : Nat) (coin : Bool)
    (avoid : Option Nat) (shuffled : List Nat) (hab : armA ≠ armB)
    (hperm : List.Perm shuffled (mkPool n armA armB coin)) :
    (genSeqFrom avoid shuffled).length = n ∧
    (genSeqFrom avoid shuffled).count armA ≤
      (genSeqFrom avoid shuffled).count armB + 1 ∧
    (genSeqFrom avoid shuffled).count armB ≤
      (genSeqFrom avoid shuffled).count armA + 1 ∧
    (∀ s, backtrack avoid [] shuffled 0 = some s → s ≠ [] →
      noTriple (genSeqFrom avoid shuffled) = true ∧
      ∀ z, avoid = some z → (genSeqFrom avoid shuffled).head? ≠ some z) := by
  have hres : List.Perm (genSeqFrom avoid shuffled) (mkPool n armA armB coin) := by
    unfold genSeqFrom
    rcases hbt : backtrack avoid [] shuffled 0 with _ | s
    · exact hperm
    · obtain ⟨hp, _, _, _⟩ := backtrack_sound avoid [] shuffled 0 s hbt
      simp only [List.nil_append] at hp
      show (if s.isEmpty = true then shuffled else s).Perm
        (mkPool n armA armB coin)
      by_cases hse : s.isEmpty = true
      · rw [if_pos hse]
        exact hperm
      · rw [if_neg hse]
        exact hp.trans hperm
  have hlen : (genSeqFrom avoid shuffled).length = n := by
    rw [hres.length_eq, mkPool_length]
  have hcA := (List.perm_iff_count.mp hres) armA
  have hcB := (List.perm_iff_count.mp hres) armB
  rw [mkPool_count_left n armA armB coin hab] at hcA
  rw [mkPool_count_right n armA armB coin hab] at hcB
  refine ⟨hlen, ?_, ?_, ?_⟩
  · rw [hcA, hcB]
    split_ifs <;> omega
  · rw [hcA, hcB]
    split_ifs <;> omega
  · intro s hbt hne
    have hse : ¬ s.isEmpty = true := by
      simp only [List.isEmpty_iff]
      exact hne
    have hgen : genSeqFrom avoid shuffled = s := by
      unfold genSeqFrom
      rw [hbt]
      show (if s.isEmpty = true then shuffled else s) = s
      rw [if_neg hse]
    obtain ⟨_, hnt, _, hhead⟩ := backtrack_sound avoid [] shuffled 0 s hbt
    rw [hgen]
    exact ⟨hnt rfl, fun z hz => hhead rfl z hz⟩

/-- Witness for C5: five trials over arms 2 and 3 with avoid-first 2 and a
concrete shuffle of the pool. -/
theorem claim_C5_witness :
    (2 : Nat) ≠ 3 ∧
    List.Perm [2, 3, 2, 3, 2] (mkPool 5 2 3 true) ∧
    ((genSeqFrom (some 2) [2, 3, 2, 3, 2]).length = 5 ∧
      (genSeqFrom (some 2) [2, 3, 2, 3, 2]).count 2 ≤
        (genSeqFrom (some 2) [2, 3, 2, 3, 2]).count 3 + 1 ∧
      (genSeqFrom (some 2) [2, 3, 2, 3, 2]).count 3 ≤
        (genSeqFrom (some 2) [2, 3, 2, 3, 2]).count 2 + 1 ∧
      (∀ s, backtrack (some 2) [] [2, 3, 2, 3, 2] 0 = some s → s ≠ [] →
        noTriple (genSeqFrom (some 2) [2, 3, 2, 3, 2]) = true ∧
        ∀ z, (some 2 : Option Nat) = some z →
          (genSeqFrom (some 2) [2, 3, 2, 3, 2]).head? ≠ some z)) := by
  refine ⟨by decide, by decide, ?_⟩
  exact claim_C5_generator_properties 5 2 3 true (some 2) [2, 3, 2, 3, 2]
    (by decide) (by decide)

/- ------------------- per-cage DP: basic facts ------------------- -/

theorem allowedArms_mem (forbid c : Nat) :
    c ∈ allowedArms forbid ↔ c ∈ arms ∧ c ≠ forbid := by
  simp [allowedArms, List.mem_filter]

theorem allowedArms_nodup (forbid : Nat) : (allowedArms forbid).Nodup := by
  apply List.Nodup.filter
  decide

theorem allowedArms_ne_nil (forbid : Nat) : allowedArms forbid ≠ [] := by
  by_cases h1 : forbid = 1
  · subst h1
    decide
  · intro hcon
    have : (1 : Nat) ∈ allowedArms forbid := by
      rw [allowedArms_mem]
      exact ⟨by decide, Ne.symm h1⟩
    rw [hcon] at this
    exact List.not_mem_nil 1 this

theorem countSwitches_snoc (prev : Option Nat) :
    ∀ (s : List Nat) (c : Nat), countSwitches prev (s ++ [c]) =
      countSwitches prev s +
        (match s.getLast? with
         | none => (match prev with
                    | none => 0
                    | some p => if c = p then 0 else 1)
         | some l => if c = l then 0 else 1) := by
  intro s
  induction s generalizing prev with
  | nil =>
    intro c
    simp [countSwitches]
  | cons d t ih =>
    intro c
    rw [List.cons_append]
    show (match prev with
          | none => 0
          | some p => if d = p then 0 else 1) +
        countSwitches (some d) (t ++ [c]) = _
    rw [ih (some d) c]
    cases t with
    | nil =>
      simp [countSwitches]
    | cons u v =>
      rw [List.getLast?_cons_cons]
      show _ = (match prev with
                | none => 0
                | some p => if d = p then 0 else 1) +
          countSwitches (some d) (u :: v) +
          (match (u :: v).getLast? with
           | none => (match prev with
                      | none => 0
                      | some p => if c = p then 0 else 1)
           | some l => if c = l then 0 else 1)
      have hne : (u :: v).getLast? = some ((u :: v).getLast (by simp)) :=
        List.getLast?_eq_getLast _ _
      rw [hne]
      dsimp only
      omega

theorem forall₂_snoc_left {α β : Type} {R : α → β → Prop} (l1 : List α)
    (a : α) (s : List β) (h : List.Forall₂ R (l1 ++ [a]) s) :
    ∃ s1 c, s = s1 ++ [c] ∧ List.Forall₂ R l1 s1 ∧ R a c := by
  have h' := List.forall₂_reverse_iff.mpr h
  rw [List.reverse_append] at h'
  simp only [List.reverse_cons, List.reverse_nil, List.nil_append,
    List.singleton_append] at h'
  rcases hs : s.reverse with _ | ⟨c, t⟩
  · rw [hs] at h'
    cases h'
  · rw [hs] at h'
    rw [List.forall₂_cons] at h'
    refine ⟨t.reverse, c, ?_, ?_, h'.1⟩
    · rw [← List.reverse_reverse s, hs, List.reverse_cons]
    · have := h'.2
      rw [← List.reverse_reverse t] at this
      exact List.forall₂_reverse_iff.mp this

theorem feasible_getLast_mem (allowed : List (List Nat)) (s : List Nat)
    (al : List Nat) (c : Nat) (h : Feasible allowed s)
    (hal : allowed.getLast? = some al) (hc : s.getLast? = some c) :
    c ∈ al := by
  have h' := List.forall₂_reverse_iff.mpr h
  rw [← List.head?_reverse] at hal hc
  rcases ha : allowed.reverse with _ | ⟨a1, arest⟩
  · rw [ha] at hal
    cases hal
  · rcases hs : s.reverse with _ | ⟨c1, srest⟩
    · rw [hs] at hc
      cases hc
    · rw [ha] at hal
      rw [hs] at hc
      simp only [List.head?_cons, Option.some_inj] at hal hc
      rw [ha, hs, List.forall₂_cons] at h'
      rw [← hal, ← hc]
      exact h'.1

theorem initLayer_keys (prev : Option Nat) (a0 : List Nat) :
    (initLayer prev a0).map (fun e => e.1) = a0 := by
  unfold initLayer
  induction a0 with
  | nil => rfl
  | cons c t ih => rw [List.map_cons, List.map_cons, ih]

theorem initLayer_form (prev : Option Nat) (a0 : List Nat)
    (e : Nat × Nat × Option Nat) (he : e ∈ initLayer prev a0) :
    e.1 ∈ a0 ∧ e.2.1 = countSwitches prev [e.1] ∧ e.2.2 = none := by
  unfold initLayer at he
  rw [List.mem_map] at he
  obtain ⟨c, hc, hce⟩ := he
  subst hce
  refine ⟨hc, ?_, rfl⟩
  cases prev <;> simp [countSwitches]

theorem nextLayer_keys (L : Layer) (a : List Nat) :
    (nextLayer L a).map (fun e => e.1) = a := by
  unfold nextLayer
  induction a with
  | nil => rfl
  | cons c t ih =>
    rw [List.map_cons, List.map_cons, ih]
    congr 1
    cases bestFromPrev L c <;> rfl

theorem bestFold_spec (c : Nat) :
    ∀ (L : Layer) (b0 : Nat × Nat),
      ∃ b, L.foldl
          (fun acc e =>
            let ch := e.2.1 + (if c = e.1 then 0 else 1)
            match acc with
            | none => some (ch, e.1)
            | some b => if ch < b.1 then some (ch, e.1) else some b)
          (some b0) = some b ∧
        b.1 ≤ b0.1 ∧
        (∀ e ∈ L, b.1 ≤ e.2.1 + (if c = e.1 then 0 else 1)) ∧
        (b = b0 ∨ ∃ e ∈ L, b.2 = e.1 ∧
          b.1 = e.2.1 + (if c = e.1 then 0 else 1)) := by
  intro L
  induction L with
  | nil =>
    intro b0
    exact ⟨b0, rfl, Nat.le_refl _, by simp, Or.inl rfl⟩
  | cons e0 t ih =>
    intro b0
    rw [List.foldl_cons]
    dsimp only
    by_cases hlt : e0.2.1 + (if c = e0.1 then 0 else 1) < b0.1
    · rw [if_pos hlt]
      obtain ⟨b, hfold, hle, hall, hform⟩ :=
        ih (e0.2.1 + (if c = e0.1 then 0 else 1), e0.1)
      refine ⟨b, hfold, by omega, ?_, ?_⟩
      · intro e he
        rcases List.mem_cons.mp he with h | h
        · subst h
          exact hle
        · exact hall e h
      · rcases hform with h | ⟨e, he, h1, h2⟩
        · right
          exact ⟨e0, List.mem_cons_self _ _, by rw [h], by rw [h]⟩
        · right
          exact ⟨e, List.mem_cons_of_mem _ he, h1, h2⟩
    · rw [if_neg hlt]
      obtain ⟨b, hfold, hle, hall, hform⟩ := ih b0
      refine ⟨b, hfold, hle, ?_, ?_⟩
      · intro e he
        rcases List.mem_cons.mp he with h | h
        · subst h
          omega
        · exact hall e h
      · rcases hform with h | ⟨e, he, h1, h2⟩
        · exact Or.inl h
        · exact Or.inr ⟨e, List.mem_cons_of_mem _ he, h1, h2⟩

theorem bestFromPrev_spec (L : Layer) (c : Nat) (hL : L ≠ []) :
    ∃ b, bestFromPrev L c = some b ∧
      (∀ e ∈ L, b.1 ≤ e.2.1 + (if c = e.1 then 0 else 1)) ∧
      (∃ e ∈ L, b.2 = e.1 ∧ b.1 = e.2.1 + (if c = e.1 then 0 else 1)) := by
  rcases L with _ | ⟨e0, t⟩
  · exact absurd rfl hL
  · unfold bestFromPrev
    rw [List.foldl_cons]
    dsimp only
    obtain ⟨b, hfold, hle, hall, hform⟩ :=
      bestFold_spec c t (e0.2.1 + (if c = e0.1 then 0 else 1), e0.1)
    refine ⟨b, hfold, ?_, ?_⟩
    · intro e he
      rcases List.mem_cons.mp he with h | h
      · subst h
        exact hle
      · exact hall e h
    · rcases hform with h | ⟨e, he, h1, h2⟩
      · exact ⟨e0, List.mem_cons_self _ _, by rw [h], by rw [h]⟩
      · exact ⟨e, List.mem_cons_of_mem _ he, h1, h2⟩

theorem nextLayer_form (L : Layer) (a : List Nat) (hL : L ≠ [])
    (e : Nat × Nat × Option Nat) (he : e ∈ nextLayer L a) :
    e.1 ∈ a ∧ ∃ ep ∈ L, e.2.2 = some ep.1 ∧
      e.2.1 = ep.2.1 + (if e.1 = ep.1 then 0 else 1) ∧
      ∀ e2 ∈ L, e.2.1 ≤ e2.2.1 + (if e.1 = e2.1 then 0 else 1) := by
  unfold nextLayer at he
  rw [List.mem_map] at he
  obtain ⟨c, hc, hce⟩ := he
  obtain ⟨b, hfold, hall, ep, hep, hb2, hb1⟩ := bestFromPrev_spec L c hL
  rw [hfold] at hce
  dsimp only at hce
  subst hce
  exact ⟨hc, ep, hep, by rw [hb2], by rw [hb1], hall⟩

theorem chooseEndFold_spec :
    ∀ (t : Layer) (b : Nat × Nat),
      (t.foldl (fun b e2 => if e2.2.1 < b.2 then (e2.1, e2.2.1) else b) b = b ∨
        ∃ e ∈ t, t.foldl
          (fun b e2 => if e2.2.1 < b.2 then (e2.1, e2.2.1) else b) b =
            (e.1, e.2.1)) ∧
      (t.foldl (fun b e2 => if e2.2.1 < b.2 then (e2.1, e2.2.1) else b) b).2
        ≤ b.2 ∧
      ∀ e2 ∈ t,
        (t.foldl (fun b e2 => if e2.2.1 < b.2 then (e2.1, e2.2.1) else b) b).2
          ≤ e2.2.1 := by
  intro t
  induction t with
  | nil =>
    intro b
    exact ⟨Or.inl rfl, Nat.le_refl _, by simp⟩
  | cons e0 t ih =>
    intro b
    rw [List.foldl_cons]
    by_cases hlt : e0.2.1 < b.2
    · rw [if_pos hlt]
      obtain ⟨hform, hle, hall⟩ := ih (e0.1, e0.2.1)
      refine ⟨?_, by omega, ?_⟩
      · rcases hform with h | ⟨e, he, h⟩
        · exact Or.inr ⟨e0, List.mem_cons_self _ _, h⟩
        · exact Or.inr ⟨e, List.mem_cons_of_mem _ he, h⟩
      · intro e2 he2
        rcases List.mem_cons.mp he2 with h | h
        · subst h
          exact hle
        · exact hall e2 h
    · rw [if_neg hlt]
      obtain ⟨hform, hle, hall⟩ := ih b
      refine ⟨?_, hle, ?_⟩
      · rcases hform with h | ⟨e, he, h⟩
        · exact Or.inl h
        · exact Or.inr ⟨e, List.mem_cons_of_mem _ he, h⟩
      · intro e2 he2
        rcases List.mem_cons.mp he2 with h | h
        · subst h
          omega
        · exact hall e2 h

theorem chooseEnd_spec (X : Layer) (hne : X ≠ []) :
    ∃ e ∈ X, chooseEnd X = (e.1, e.2.1) ∧ ∀ e2 ∈ X, e.2.1 ≤ e2.2.1 := by
  rcases X with _ | ⟨e0, t⟩
  · exact absurd rfl hne
  · unfold chooseEnd
    obtain ⟨hform, hle, hall⟩ := chooseEndFold_spec t (e0.1, e0.2.1)
    rcases hform with h | ⟨e, he, h⟩
    · refine ⟨e0, List.mem_cons_self _ _, h, ?_⟩
      intro e2 he2
      rcases List.mem_cons.mp he2 with h2 | h2
      · subst h2
        exact Nat.le_refl _
      · have := hall e2 h2
        rw [h] at this
        exact this
    · refine ⟨e, List.mem_cons_of_mem _ he, h, ?_⟩
      intro e2 he2
      rcases List.mem_cons.mp he2 with h2 | h2
      · subst h2
        have : (List.foldl (fun b e2 =>
            if e2.2.1 < b.2 then (e2.1, e2.2.1) else b) (e2.1, e2.2.1) t).2
            ≤ e2.2.1 := hle
        rw [h] at this
        exact this
      · have := hall e2 h2
        rw [h] at this
        exact this

theorem lookupLayer_eq (X : Layer) (e : Nat × Nat × Option Nat) (he : e ∈ X)
    (hnd : (X.map (fun x => x.1)).Nodup) : lookupLayer X e.1 = some e.2 := by
  induction X with
  | nil => cases he
  | cons x t ih =>
    rw [List.map_cons, List.nodup_cons] at hnd
    rcases List.mem_cons.mp he with h | h
    · subst h
      unfold lookupLayer
      rw [List.find?_cons_of_pos _ (by simp)]
      rfl
    · have hxe : ¬ (x.1 = e.1) := by
        intro hcon
        apply hnd.1
        rw [hcon]
        exact List.mem_map.mpr ⟨e, h, rfl⟩
      show lookupLayer (x :: t) e.1 = some e.2
      unfold lookupLayer
      rw [List.find?_cons_of_neg _ (by simp [hxe])]
      exact ih h hnd.2

theorem lastLayer_append (L : Layer) (as : List (List Nat)) (a : List Nat) :
    lastLayer L (as ++ [a]) = nextLayer (lastLayer L as) a := by
  unfold lastLayer
  rw [List.foldl_append]
  rfl

theorem lastLayer_keys (L : Layer) :
    ∀ (as : List (List Nat)),
      (lastLayer L as).map (fun e => e.1) =
        as.getLastD (L.map (fun e => e.1)) := by
  intro as
  induction as generalizing L with
  | nil => rfl
  | cons a t ih =>
    show (lastLayer (nextLayer L a) t).map (fun e => e.1) = _
    rw [ih (nextLayer L a), nextLayer_keys, List.getLastD_cons]

theorem stepLayers_getLastD (L : Layer) :
    ∀ (as : List (List Nat)) (d : Layer),
      (stepLayers L as).getLastD d = lastLayer L as := by
  intro as
  induction as generalizing L with
  | nil => intro d; rfl
  | cons a t ih =>
    intro d
    show (L :: stepLayers (nextLayer L a) t).getLastD d = _
    rw [List.getLastD_cons, ih (nextLayer L a) L]
    rfl

theorem stepLayers_append (L : Layer) :
    ∀ (as : List (List Nat)) (a : List Nat),
      stepLayers L (as ++ [a]) =
        stepLayers L as ++ [nextLayer (lastLayer L as) a] := by
  intro as
  induction as generalizing L with
  | nil => intro a; rfl
  | cons b t ih =>
    intro a
    show L :: stepLayers (nextLayer L b) (t ++ [a]) = _
    rw [ih (nextLayer L b) a]
    rfl

theorem stepLayers_length (l : Layer) :
    ∀ (as : List (List Nat)), (stepLayers l as).length = as.length + 1 := by
  intro as
  induction as generalizing l with
  | nil => rfl
  | cons a t ih =>
    show (l :: stepLayers (nextLayer l a) t).length = _
    rw [List.length_cons, ih (nextLayer l a)]
    rfl

theorem getLastD_mem (l : List (List Nat)) (d : List Nat) :
    l.getLastD d ∈ d :: l := by
  cases l with
  | nil => exact List.mem_cons_self _ _
  | cons x t =>
    rw [List.getLastD_eq_getLast?, List.getLast?_eq_getLast (x :: t) (by simp)]
    exact List.mem_cons_of_mem _ (List.getLast_mem (by simp))

theorem layers_lb (prev : Option Nat) :
    ∀ (as pfx : List (List Nat)) (l : Layer), pfx ≠ [] →
      l.map (fun e => e.1) = pfx.getLastD [] →
      (∀ e ∈ l, ∀ s, Feasible pfx s → s.getLast? = some e.1 →
        e.2.1 ≤ countSwitches prev s) →
      ∀ e ∈ lastLayer l as, ∀ s, Feasible (pfx ++ as) s →
        s.getLast? = some e.1 → e.2.1 ≤ countSwitches prev s := by
  intro as
  induction as with
  | nil =>
    intro pfx l hpfx hkeys hlb
    simpa using hlb
  | cons a t ih =>
    intro pfx l hpfx hkeys hlb
    have hstep : ∀ e ∈ nextLayer l a, ∀ s, Feasible (pfx ++ [a]) s →
        s.getLast? = some e.1 → e.2.1 ≤ countSwitches prev s := by
      intro e he s hs hlast
      obtain ⟨s1, c2, hs12, hfs1, hc2⟩ := forall₂_snoc_left pfx a s hs
      subst hs12
      rw [List.getLast?_concat] at hlast
      have hc2e : c2 = e.1 := Option.some_inj.mp hlast
      have hs1ne : s1 ≠ [] := by
        intro hcon
        subst hcon
        rw [List.forall₂_nil_right_iff] at hfs1
        exact hpfx hfs1
      obtain ⟨l1, hl1⟩ : ∃ l1, s1.getLast? = some l1 :=
        ⟨s1.getLast hs1ne, List.getLast?_eq_getLast _ _⟩
      have hpfxlast : pfx.getLast? = some (pfx.getLastD []) := by
        rcases pfx with _ | ⟨p0, prest⟩
        · exact absurd rfl hpfx
        · rw [List.getLastD_eq_getLast?,
            List.getLast?_eq_getLast (p0 :: prest) (by simp)]
          rfl
      have hl1mem : l1 ∈ pfx.getLastD [] :=
        feasible_getLast_mem pfx s1 _ l1 hfs1 hpfxlast hl1
      rw [← hkeys] at hl1mem
      obtain ⟨e1, he1, he1k⟩ := List.mem_map.mp hl1mem
      have hlne : l ≠ [] := by
        intro hcon
        rw [hcon] at he1
        exact List.not_mem_nil _ he1
      obtain ⟨hea, ep, hep, _, _, hmin⟩ := nextLayer_form l a hlne e he
      have h1 := hmin e1 he1
      have h2 := hlb e1 he1 s1 hfs1 (by rw [hl1, he1k])
      rw [countSwitches_snoc prev s1 c2, hl1]
      dsimp only
      rw [hc2e, ← he1k]
      omega
    have hconc := ih (pfx ++ [a]) (nextLayer l a) (by simp)
      (by rw [nextLayer_keys, List.getLastD_eq_getLast?, List.getLast?_concat]
          rfl)
      hstep
    show ∀ e ∈ lastLayer (nextLayer l a) t, _
    intro e he s hs hlast
    apply hconc e he s ?_ hlast
    show Feasible (pfx ++ [a] ++ t) s
    rw [List.append_assoc, List.singleton_append]
    exact hs

theorem reconstruct_spec (prev : Option Nat) (a0 : List Nat) :
    ∀ (as : List (List Nat)),
      (∀ al ∈ a0 :: as, al.Nodup) → (∀ al ∈ a0 :: as, al ≠ []) →
      ∀ e ∈ lastLayer (initLayer prev a0) as,
        (reconstruct
            ((stepLayers (initLayer prev a0) as).drop 1).reverse e.1).length =
            as.length + 1 ∧
        Feasible (a0 :: as)
          (reconstruct
            ((stepLayers (initLayer prev a0) as).drop 1).reverse e.1) ∧
        (reconstruct
            ((stepLayers (initLayer prev a0) as).drop 1).reverse e.1).getLast?
            = some e.1 ∧
        countSwitches prev
          (reconstruct
            ((stepLayers (initLayer prev a0) as).drop 1).reverse e.1)
          ≤ e.2.1 := by
  intro as
  induction as using List.reverseRecOn with
  | nil =>
    intro hnodup hne e he
    obtain ⟨hmem, hcost, hprev⟩ := initLayer_form prev a0 e he
    refine ⟨rfl, ?_, rfl, ?_⟩
    · exact List.Forall₂.cons hmem List.Forall₂.nil
    · show countSwitches prev [e.1] ≤ e.2.1
      exact Nat.le_of_eq hcost.symm
  | append_singleton t a ih =>
    intro hnodup hne e he
    have hlastne : lastLayer (initLayer prev a0) t ≠ [] := by
      intro hcon
      have hk := lastLayer_keys (initLayer prev a0) t
      rw [hcon, initLayer_keys] at hk
      have hmem := getLastD_mem t a0
      have := hne (t.getLastD a0)
        (by rcases List.mem_cons.mp hmem with h | h
            · rw [h]
              exact List.mem_cons_self _ _
            · exact List.mem_cons_of_mem _ (List.mem_append_left _ h))
      rw [← hk] at this
      exact this rfl
    rw [lastLayer_append] at he
    obtain ⟨hea, ep, hep, he22, he21, _⟩ :=
      nextLayer_form (lastLayer (initLayer prev a0) t) a hlastne e he
    have hdrop : ((stepLayers (initLayer prev a0) (t ++ [a])).drop 1).reverse =
        nextLayer (lastLayer (initLayer prev a0) t) a ::
          ((stepLayers (initLayer prev a0) t).drop 1).reverse := by
      rw [stepLayers_append, List.drop_append_of_le_length
        (by rw [stepLayers_length]; omega)]
      rw [List.reverse_append]
      rfl
    have hnd : ((nextLayer (lastLayer (initLayer prev a0) t) a).map
        (fun x => x.1)).Nodup := by
      rw [nextLayer_keys]
      exact hnodup a (by simp)
    have hlk : lookupLayer (nextLayer (lastLayer (initLayer prev a0) t) a) e.1
        = some (e.2.1, some ep.1) := by
      rw [lookupLayer_eq _ e he hnd, ← he22]
    have hrec : reconstruct
        ((stepLayers (initLayer prev a0) (t ++ [a])).drop 1).reverse e.1 =
        reconstruct ((stepLayers (initLayer prev a0) t).drop 1).reverse ep.1
          ++ [e.1] := by
      rw [hdrop, reconstruct, hlk]
    obtain ⟨hl, hf, hlast, hcost⟩ := ih
      (by intro al hal
          exact hnodup al (by
            rcases List.mem_cons.mp hal with h | h
            · rw [h]
              exact List.mem_cons_self _ _
            · exact List.mem_cons_of_mem _ (List.mem_append_left _ h)))
      (by intro al hal
          exact hne al (by
            rcases List.mem_cons.mp hal with h | h
            · rw [h]
              exact List.mem_cons_self _ _
            · exact List.mem_cons_of_mem _ (List.mem_append_left _ h)))
      ep hep
    rw [hrec]
    refine ⟨?_, ?_, ?_, ?_⟩
    · rw [List.length_append, hl]
      simp
    · have happ : a0 :: (t ++ [a]) = (a0 :: t) ++ [a] := rfl
      rw [happ]
      exact List.rel_append hf (List.Forall₂.cons hea List.Forall₂.nil)
    · rw [List.getLast?_concat]
    · rw [countSwitches_snoc prev _ e.1, hlast]
      dsimp only
      omega

theorem planCageDp_cons (a1 : Animal) (rest : List Animal) (prev : Option Nat)
    (exitMap : String → Nat) :
    planCageDp (a1 :: rest) prev exitMap =
      { cost := (chooseEnd ((stepLayers
            (initLayer prev (allowedArms (exitMap a1.animalID)))
            (rest.map (fun a => allowedArms (exitMap a.animalID)))).getLastD
              [])).2,
        endArm := some (chooseEnd ((stepLayers
            (initLayer prev (allowedArms (exitMap a1.animalID)))
            (rest.map (fun a => allowedArms (exitMap a.animalID)))).getLastD
              [])).1,
        first := (reconstruct ((stepLayers
            (initLayer prev (allowedArms (exitMap a1.animalID)))
            (rest.map (fun a => allowedArms (exitMap a.animalID)))).drop
              1).reverse
            (chooseEnd ((stepLayers
              (initLayer prev (allowedArms (exitMap a1.animalID)))
              (rest.map (fun a => allowedArms (exitMap a.animalID)))).getLastD
                [])).1).headD
          (chooseEnd ((stepLayers
            (initLayer prev (allowedArms (exitMap a1.animalID)))
            (rest.map (fun a => allowedArms (exitMap a.animalID)))).getLastD
              [])).1,
        colors := reconstruct ((stepLayers
            (initLayer prev (allowedArms (exitMap a1.animalID)))
            (rest.map (fun a => allowedArms (exitMap a.animalID)))).drop
              1).reverse
          (chooseEnd ((stepLayers
            (initLayer prev (allowedArms (exitMap a1.animalID)))
            (rest.map (fun a => allowedArms (exitMap a.animalID)))).getLastD
              [])).1 } := rfl

theorem planCageDp_spec (cage : List Animal) (prev : Option Nat)
    (exitMap : String → Nat) (hne : cage ≠ []) :
    (planCageDp cage prev exitMap).colors.length = cage.length ∧
    countSwitches prev (planCageDp cage prev exitMap).colors =
      (planCageDp cage prev exitMap).cost ∧
    List.Forall₂ (fun a c => c ∈ arms ∧ c ≠ exitMap a.animalID) cage
      (planCageDp cage prev exitMap).colors ∧
    ∀ s, List.Forall₂ (fun a c => c ∈ arms ∧ c ≠ exitMap a.animalID) cage s →
      (planCageDp cage prev exitMap).cost ≤ countSwitches prev s := by
  rcases cage with _ | ⟨a1, rest⟩
  · exact absurd rfl hne
  rw [planCageDp_cons]
  dsimp only
  have hmapline : allowedArms (exitMap a1.animalID) ::
      rest.map (fun a => allowedArms (exitMap a.animalID)) =
      (a1 :: rest).map (fun a => allowedArms (exitMap a.animalID)) := rfl
  have hnodup : ∀ al ∈ allowedArms (exitMap a1.animalID) ::
      rest.map (fun a => allowedArms (exitMap a.animalID)), al.Nodup := by
    intro al hal
    rw [hmapline] at hal
    obtain ⟨x, _, hx⟩ := List.mem_map.mp hal
    rw [← hx]
    exact allowedArms_nodup _
  have hnonil : ∀ al ∈ allowedArms (exitMap a1.animalID) ::
      rest.map (fun a => allowedArms (exitMap a.animalID)), al ≠ [] := by
    intro al hal
    rw [hmapline] at hal
    obtain ⟨x, _, hx⟩ := List.mem_map.mp hal
    rw [← hx]
    exact allowedArms_ne_nil _
  have hlastkeys : (lastLayer
      (initLayer prev (allowedArms (exitMap a1.animalID)))
      (rest.map (fun a => allowedArms (exitMap a.animalID)))).map
        (fun e => e.1) =
      (rest.map (fun a => allowedArms (exitMap a.animalID))).getLastD
        (allowedArms (exitMap a1.animalID)) := by
    rw [lastLayer_keys, initLayer_keys]
  have hlastmem : (rest.map
      (fun a => allowedArms (exitMap a.animalID))).getLastD
        (allowedArms (exitMap a1.animalID)) ∈
      allowedArms (exitMap a1.animalID) ::
        rest.map (fun a => allowedArms (exitMap a.animalID)) :=
    getLastD_mem _ _
  have hlastne : lastLayer
      (initLayer prev (allowedArms (exitMap a1.animalID)))
      (rest.map (fun a => allowedArms (exitMap a.animalID))) ≠ [] := by
    intro hcon
    have hk := hlastkeys
    rw [hcon] at hk
    exact hnonil _ hlastmem hk.symm
  have hbase : ∀ e ∈ initLayer prev (allowedArms (exitMap a1.animalID)),
      ∀ s, Feasible [allowedArms (exitMap a1.animalID)] s →
        s.getLast? = some e.1 → e.2.1 ≤ countSwitches prev s := by
    intro e he s hs hlast
    obtain ⟨hmem, hcost, _⟩ := initLayer_form prev _ e he
    cases hs with
    | cons hr hrest =>
      cases hrest
      simp only [List.getLast?_cons, List.getLast?_nil] at hlast
      have : _ = e.1 := Option.some_inj.mp hlast
      subst this
      exact Nat.le_of_eq hcost
  have hlb := layers_lb prev
    (rest.map (fun a => allowedArms (exitMap a.animalID)))
    [allowedArms (exitMap a1.animalID)]
    (initLayer prev (allowedArms (exitMap a1.animalID)))
    (by simp)
    (by rw [initLayer_keys]; rfl)
    hbase
  rw [List.singleton_append] at hlb
  obtain ⟨eend, heend, hch, hmin⟩ := chooseEnd_spec _ hlastne
  rw [stepLayers_getLastD, hch]
  obtain ⟨hlen, hfeas, hlastc, hcostle⟩ := reconstruct_spec prev
    (allowedArms (exitMap a1.animalID))
    (rest.map (fun a => allowedArms (exitMap a.animalID)))
    hnodup hnonil eend heend
  have hgood : eend.2.1 ≤ countSwitches prev
      (reconstruct ((stepLayers
        (initLayer prev (allowedArms (exitMap a1.animalID)))
        (rest.map (fun a => allowedArms (exitMap a.animalID)))).drop
          1).reverse eend.1) :=
    hlb eend heend _ hfeas hlastc
  have hfeas_iff : ∀ s, Feasible (allowedArms (exitMap a1.animalID) ::
      rest.map (fun a => allowedArms (exitMap a.animalID))) s ↔
      List.Forall₂ (fun a c => c ∈ arms ∧ c ≠ exitMap a.animalID)
        (a1 :: rest) s := by
    intro s
    rw [hmapline]
    unfold Feasible
    rw [List.forall₂_map_left_iff]
    constructor
    · intro h
      exact h.imp (fun a c hc => (allowedArms_mem _ c).mp hc)
    · intro h
      exact h.imp (fun a c hc => (allowedArms_mem _ c).mpr hc)
  refine ⟨?_, ?_, ?_, ?_⟩
  · rw [hlen]
    simp
  · exact Nat.le_antisymm hcostle hgood
  · exact (hfeas_iff _).mp hfeas
  · intro s hs
    have hsf : Feasible (allowedArms (exitMap a1.animalID) ::
        rest.map (fun a => allowedArms (exitMap a.animalID))) s :=
      (hfeas_iff s).mpr hs
    have hslen : s.length = rest.length + 1 := by
      have hlen2 := List.Forall₂.length_eq hsf
      simp at hlen2
      omega
    have hsne : s ≠ [] := by
      intro hcon
      rw [hcon] at hslen
      simp at hslen
    obtain ⟨l, hl⟩ : ∃ l, s.getLast? = some l :=
      ⟨s.getLast hsne, List.getLast?_eq_getLast _ _⟩
    have hlmem : l ∈ (rest.map
        (fun a => allowedArms (exitMap a.animalID))).getLastD
          (allowedArms (exitMap a1.animalID)) := by
      apply feasible_getLast_mem _ s _ l hsf ?_ hl
      rw [List.getLast?_cons, List.getLastD_eq_getLast?]
    rw [← hlastkeys] at hlmem
    obtain ⟨e2, he2, he2k⟩ := List.mem_map.mp hlmem
    have h1 := hmin e2 he2
    have h2 := hlb e2 he2 s hsf (by rw [hl, he2k])
    omega

/-- C2: on a non-empty cage with a learning-exit map into {1,2,3} and an
optional incoming arm from {1,2,3}, `plan_cage_dp` returns colors of the
cage's length, each of which avoids that animal's learning exit arm; the
returned cost equals the independently recomputed switch count of the colors
(adjacent changes plus the boundary against the incoming arm); and that cost
is minimal among all arm sequences over {1,2,3} that avoid each animal's
learning exit arm. -/
theorem claim_C2_dp_optimal (cage : List Animal) (prev : Option Nat)
    (exitMap : String → Nat) (hne : cage ≠ [])
    (_hvals : ∀ a ∈ cage, exitMap a.animalID ∈ arms)
    (_hprev : ∀ p, prev = some p → p ∈ arms) :
    (planCageDp cage prev exitMap).colors.length = cage.length ∧
    countSwitches prev (planCageDp cage prev exitMap).colors =
      (planCageDp cage prev exitMap).cost ∧
    List.Forall₂ (fun a c => c ∈ arms ∧ c ≠ exitMap a.animalID) cage
      (planCageDp cage prev exitMap).colors ∧
    ∀ s, List.Forall₂ (fun a c => c ∈ arms ∧ c ≠ exitMap a.animalID) cage s →
      (planCageDp cage prev exitMap).cost ≤ countSwitches prev s :=
  planCageDp_spec cage prev exitMap hne

/-- Witness for C2: a two-animal cage with incoming arm 3 and a concrete
learning-exit map. -/
theorem claim_C2_witness :
    ([sampleA1, sampleA2] : List Animal) ≠ [] ∧
    (∀ a ∈ ([sampleA1, sampleA2] : List Animal), wExitMap a.animalID ∈ arms) ∧
    (∀ p, (some 3 : Option Nat) = some p → p ∈ arms) ∧
    ((planCageDp [sampleA1, sampleA2] (some 3) wExitMap).colors.length =
        ([sampleA1, sampleA2] : List Animal).length ∧
      countSwitches (some 3)
          (planCageDp [sampleA1, sampleA2] (some 3) wExitMap).colors =
        (planCageDp [sampleA1, sampleA2] (some 3) wExitMap).cost ∧
      List.Forall₂ (fun a c => c ∈ arms ∧ c ≠ wExitMap a.animalID)
        [sampleA1, sampleA2]
        (planCageDp [sampleA1, sampleA2] (some 3) wExitMap).colors ∧
      ∀ s, List.Forall₂ (fun a c => c ∈ arms ∧ c ≠ wExitMap a.animalID)
          [sampleA1, sampleA2] s →
        (planCageDp [sampleA1, sampleA2] (some 3) wExitMap).cost ≤
          countSwitches (some 3) s) := by
  refine ⟨by simp, by decide, by intro p hp; cases hp; decide, ?_⟩
  exact claim_C2_dp_optimal [sampleA1, sampleA2] (some 3) wExitMap (by simp)
    (by decide) (by intro p hp; cases hp; decide)

/- ------------------- cage-pack optimizer: structure ------------------- -/

theorem lookup_eq_of_mem :
    ∀ (l : List (String × List Animal)) (c : String) (g : List Animal),
      (l.map Prod.fst).Nodup → (c, g) ∈ l → l.lookup c = some g := by
  intro l
  induction l with
  | nil => intro c g _ hmem; cases hmem
  | cons p t ih =>
    intro c g hnd hmem
    rw [List.map_cons, List.nodup_cons] at hnd
    rcases List.mem_cons.mp hmem with h | h
    · cases h
      simp [List.lookup]
    · have hcm : c ∈ t.map Prod.fst := List.mem_map.mpr ⟨(c, g), h, rfl⟩
      have hc : (c == p.1) = false := by
        rw [beq_eq_false_iff_ne]
        intro he
        exact hnd.1 (he ▸ hcm)
      cases p with
      | mk p1 p2 =>
        simp only [List.lookup, hc]
        exact ih c g hnd.2 h

theorem lookupNat_mem :
    ∀ (l : List (String × Nat)) (k : String),
      k ∈ l.map Prod.fst → ∃ v, l.lookup k = some v ∧ (k, v) ∈ l := by
  intro l
  induction l with
  | nil => intro k hk; cases hk
  | cons p t ih =>
    intro k hk
    by_cases he : k = p.1
    · cases p with
      | mk p1 p2 =>
        refine ⟨p2, ?_, ?_⟩
        · simp [List.lookup, he]
        · rw [he]; exact List.mem_cons_self _ _
    · have hk2 : k ∈ t.map Prod.fst := by
        rw [List.map_cons, List.mem_cons] at hk
        rcases hk with h | h
        · exact absurd h he
        · exact h
      obtain ⟨v, hl, hm⟩ := ih k hk2
      cases p with
      | mk p1 p2 =>
        refine ⟨v, ?_, List.mem_cons_of_mem _ hm⟩
        have hb : (k == p1) = false := beq_eq_false_iff_ne.mpr he
        simp only [List.lookup, hb]
        exact hl

theorem flatMap_congr_mem {α β : Type} (l : List α) (f g : α → List β)
    (h : ∀ x ∈ l, f x = g x) : l.flatMap f = l.flatMap g := by
  induction l with
  | nil => rfl
  | cons a t ih =>
    rw [List.flatMap_cons, List.flatMap_cons, h a (List.mem_cons_self a t),
      ih (fun x hx => h x (List.mem_cons_of_mem a hx))]

theorem flatMap_map_fst {α β γ : Type} (l : List (α × β)) (g : α → List γ) :
    (l.map Prod.fst).flatMap g = l.flatMap (fun p => g p.1) := by
  induction l with
  | nil => rfl
  | cons a t ih =>
    rw [List.map_cons, List.flatMap_cons, List.flatMap_cons, ih]

theorem candFold_mem {α : Type} (f : α → Nat) :
    ∀ (l : List α) (c : α),
      l.foldl (fun b x => if f x < f b then x else b) c ∈ c :: l := by
  intro l
  induction l with
  | nil => intro c; simp
  | cons a t ih =>
    intro c
    simp only [List.foldl_cons]
    by_cases h : f a < f c
    · rw [if_pos h]
      exact List.mem_cons_of_mem c (ih a)
    · rw [if_neg h]
      rcases List.mem_cons.mp (ih c) with h2 | h2
      · exact List.mem_cons.mpr (Or.inl h2)
      · exact List.mem_cons.mpr (Or.inr (List.mem_cons_of_mem a h2))

theorem forall₂_zip_mem {α β : Type} {R : α → β → Prop} :
    ∀ (l1 : List α) (l2 : List β), List.Forall₂ R l1 l2 →
      ∀ p ∈ l1.zip l2, R p.1 p.2 := by
  intro l1
  induction l1 with
  | nil => intro l2 h p hp; cases h; cases hp
  | cons a t ih =>
    intro l2 h p hp
    cases h with
    | cons hr hrest =>
      rcases List.mem_cons.mp hp with h1 | h1
      · subst h1; exact hr
      · exact ih _ hrest p h1

theorem groupByCage_snoc (xs : List Animal) (a : Animal) :
    groupByCage (xs ++ [a]) =
      (if (groupByCage xs).any (fun p => p.1 = a.cage) then
        (groupByCage xs).map
          (fun p => if p.1 = a.cage then (p.1, p.2 ++ [a]) else p)
      else groupByCage xs ++ [(a.cage, [a])]) := by
  simp only [groupByCage]
  rw [List.foldl_append, List.foldl_cons, List.foldl_nil]

theorem groupByCage_spec (animals : List Animal) :
    ((groupByCage animals).map Prod.fst).Nodup ∧
    (∀ p ∈ groupByCage animals, p.2 = animals.filter (fun x => x.cage = p.1)) ∧
    (∀ a ∈ animals, a.cage ∈ (groupByCage animals).map Prod.fst) ∧
    (∀ p ∈ groupByCage animals, p.2 ≠ []) := by
  induction animals using List.reverseRecOn with
  | nil => simp [groupByCage]
  | append_singleton xs a ih =>
    obtain ⟨hnd, hval, hcov, hnee⟩ := ih
    rw [groupByCage_snoc]
    by_cases hany : (groupByCage xs).any (fun p => p.1 = a.cage)
    · rw [if_pos hany]
      have hkeys : ((groupByCage xs).map
          (fun p => if p.1 = a.cage then (p.1, p.2 ++ [a]) else p)).map Prod.fst =
          (groupByCage xs).map Prod.fst := by
        rw [List.map_map]
        apply List.map_congr_left
        intro p _
        by_cases hp : p.1 = a.cage
        · simp [Function.comp, hp]
        · simp [Function.comp, hp]
      refine ⟨by rw [hkeys]; exact hnd, ?_, ?_, ?_⟩
      · intro p2 hp2
        obtain ⟨p, hpG, rfl⟩ := List.mem_map.mp hp2
        by_cases hp : p.1 = a.cage
        · simp only [if_pos hp]
          rw [List.filter_append, ← hval p hpG]
          have hac : a.cage = p.1 := hp.symm
          simp [hac]
        · simp only [if_neg hp]
          rw [List.filter_append, ← hval p hpG]
          have hac : ¬ a.cage = p.1 := fun h => hp h.symm
          simp [hac]
      · intro x hx
        rw [hkeys]
        rcases List.mem_append.mp hx with h | h
        · exact hcov x h
        · have hxa : x = a := by simpa using h
          obtain ⟨p, hpG, hpc⟩ := List.any_eq_true.mp hany
          rw [hxa]
          have : a.cage = p.1 := (by simpa using hpc : p.1 = a.cage).symm
          rw [this]
          exact List.mem_map.mpr ⟨p, hpG, rfl⟩
      · intro p2 hp2
        obtain ⟨p, hpG, rfl⟩ := List.mem_map.mp hp2
        by_cases hp : p.1 = a.cage
        · simp [if_pos hp]
        · simp only [if_neg hp]
          exact hnee p hpG
    · rw [if_neg hany]
      have hnotin : a.cage ∉ (groupByCage xs).map Prod.fst := by
        intro hmem
        obtain ⟨p, hpG, hpc⟩ := List.mem_map.mp hmem
        exact hany (List.any_eq_true.mpr ⟨p, hpG, by simp [hpc]⟩)
      refine ⟨?_, ?_, ?_, ?_⟩
      · rw [List.map_append]
        simp [List.nodup_append, hnd, hnotin]
      · intro p2 hp2
        rcases List.mem_append.mp hp2 with h | h
        · have hne2 : ¬ a.cage = p2.1 := by
            intro he
            exact hnotin (he ▸ List.mem_map.mpr ⟨p2, h, rfl⟩)
          rw [List.filter_append, ← hval p2 h]
          simp [hne2]
        · have hx : p2 = (a.cage, [a]) := by simpa using h
          rw [hx]
          rw [List.filter_append]
          have hxs : xs.filter (fun x => x.cage = (a.cage, [a]).1) = [] := by
            rw [List.filter_eq_nil_iff]
            intro x hxm
            simp only [decide_eq_true_eq]
            intro he
            exact hnotin (he ▸ hcov x hxm)
          rw [hxs]
          simp
      · intro x hx
        rw [List.map_append]
        rcases List.mem_append.mp hx with h | h
        · exact List.mem_append.mpr (Or.inl (hcov x h))
        · have hxa : x = a := by simpa using h
          rw [hxa]
          exact List.mem_append.mpr (Or.inr (by simp))
      · intro p2 hp2
        rcases List.mem_append.mp hp2 with h | h
        · exact hnee p2 h
        · have hx : p2 = (a.cage, [a]) := by simpa using h
          rw [hx]
          simp

theorem filter_cage_sub (c2 c : String) (hne2 : c2 ≠ c) :
    ∀ l : List Animal,
      l.filter (fun x => x.cage = c2) =
        (l.filter (fun x => ¬ x.cage = c)).filter (fun x => x.cage = c2) := by
  intro l
  induction l with
  | nil => rfl
  | cons a t iht =>
    by_cases hc : a.cage = c
    · have d2 : decide (a.cage = c2) = false := by
        rw [decide_eq_false_iff_not]
        intro hh
        exact hne2 (by rw [← hh, hc])
      have dnc : decide (¬ a.cage = c) = false := by simp [hc]
      simp [List.filter_cons, d2, dnc, iht, -List.filter_filter]
      rw [if_pos hc]
    · have dnc : decide (¬ a.cage = c) = true := by simp [hc]
      by_cases h2 : a.cage = c2
      · have d2 : decide (a.cage = c2) = true := by simp [h2]
        simp [List.filter_cons, d2, dnc, iht, -List.filter_filter]
        rw [if_neg hc]
        simp [List.filter_cons, d2, -List.filter_filter]
      · have d2 : decide (a.cage = c2) = false := by simp [h2]
        simp [List.filter_cons, d2, dnc, iht, -List.filter_filter]
        rw [if_neg hc]
        simp [List.filter_cons, d2, -List.filter_filter]

theorem flatMap_filter_sub (c : String) (l : List Animal) :
    ∀ cs2 : List String, c ∉ cs2 →
      cs2.flatMap (fun c2 => l.filter (fun x => x.cage = c2)) =
        cs2.flatMap (fun c2 => (l.filter (fun x => ¬ x.cage = c)).filter
          (fun x => x.cage = c2)) := by
  intro cs2
  induction cs2 with
  | nil => intro _; rfl
  | cons d t iht =>
    intro hnc
    have hdc : d ≠ c := by
      intro he
      exact hnc (by rw [← he]; exact List.mem_cons_self d t)
    have htc : c ∉ t := fun ht => hnc (List.mem_cons_of_mem d ht)
    rw [List.flatMap_cons, List.flatMap_cons, filter_cage_sub d c hdc l, iht htc]

theorem flatMap_filter_perm :
    ∀ (cs : List String) (l : List Animal),
      cs.Nodup → (∀ a ∈ l, a.cage ∈ cs) →
      List.Perm (cs.flatMap (fun c => l.filter (fun x => x.cage = c))) l := by
  intro cs
  induction cs with
  | nil =>
    intro l _ hcov
    cases l with
    | nil => exact List.Perm.refl _
    | cons a t => exact absurd (hcov a (List.mem_cons_self a t)) (List.not_mem_nil _)
  | cons c cs ih =>
    intro l hnd hcov
    rw [List.nodup_cons] at hnd
    rw [List.flatMap_cons, flatMap_filter_sub c l cs hnd.1]
    have hcov2 : ∀ a ∈ l.filter (fun x => ¬ x.cage = c), a.cage ∈ cs := by
      intro a ha
      rw [List.mem_filter] at ha
      have h1 := hcov a ha.1
      rcases List.mem_cons.mp h1 with h | h
      · exact absurd h (by simpa using ha.2)
      · exact h
    have hperm := ih (l.filter (fun x => ¬ x.cage = c)) hnd.2 hcov2
    refine (List.Perm.append_left _ hperm).trans ?_
    have hfl := List.filter_append_perm (fun x => x.cage = c) l
    simpa [decide_not] using hfl

theorem greedyRest_shape (planOf : String → Nat → Plan) :
    ∀ (m : Nat) (remaining : List String) (prevEnd : Nat),
      remaining.length ≤ m →
      List.Perm ((greedyRest planOf remaining prevEnd).2.1.map Prod.fst)
          remaining ∧
      ∀ cp ∈ (greedyRest planOf remaining prevEnd).2.1,
        ∃ e, cp.2 = planOf cp.1 e := by
  intro m
  induction m with
  | zero =>
    intro remaining prevEnd hlen
    have : remaining = [] := List.length_eq_zero.mp (Nat.le_zero.mp hlen)
    subst this
    simp [greedyRest]
  | succ m ih =>
    intro remaining prevEnd hlen
    match remaining with
    | [] => simp [greedyRest]
    | c0 :: rest =>
      rw [greedyRest]
      have hcmem : minByCost (fun ck => (planOf ck prevEnd).cost) c0 rest ∈
          c0 :: rest := minByCost_mem (fun ck => (planOf ck prevEnd).cost) rest c0
      have hlen2 : ((c0 :: rest).erase
          (minByCost (fun ck => (planOf ck prevEnd).cost) c0 rest)).length ≤ m := by
        rw [List.length_erase_of_mem hcmem]
        simpa using hlen
      obtain ⟨ihp, ihe⟩ := ih ((c0 :: rest).erase
          (minByCost (fun ck => (planOf ck prevEnd).cost) c0 rest))
        ((planOf (minByCost (fun ck => (planOf ck prevEnd).cost) c0 rest)
            prevEnd).endArm.getD prevEnd) hlen2
      constructor
      · rw [List.map_cons]
        exact (ihp.cons _).trans (List.perm_cons_erase hcmem).symm
      · intro cp hcp
        rcases List.mem_cons.mp hcp with h | h
        · subst h
          exact ⟨prevEnd, rfl⟩
        · exact ihe cp h

theorem greedyFrom_shape (planOf : String → Nat → Plan) (startArm : Nat)
    (firstCage : String) (cageNames : List String) (hfc : firstCage ∈ cageNames) :
    List.Perm ((greedyFrom planOf startArm firstCage cageNames).2.1.map Prod.fst)
        cageNames ∧
    ∀ cp ∈ (greedyFrom planOf startArm firstCage cageNames).2.1,
      ∃ e, cp.2 = planOf cp.1 e := by
  obtain ⟨hp, he⟩ := greedyRest_shape planOf (cageNames.erase firstCage).length
    (cageNames.erase firstCage)
    ((planOf firstCage startArm).endArm.getD startArm) (le_refl _)
  constructor
  · simp only [greedyFrom, List.map_cons]
    exact (hp.cons firstCage).trans (List.perm_cons_erase hfc).symm
  · intro cp hcp
    simp only [greedyFrom, List.mem_cons] at hcp
    rcases hcp with h | h
    · subst h
      exact ⟨startArm, rfl⟩
    · exact he cp h

theorem buildNonlearning_shape (animals : List Animal) (exitMap : String → Nat)
    (hne : animals ≠ []) :
    ∃ placed : List (String × Plan),
      List.Perm (placed.map Prod.fst) ((groupByCage animals).map Prod.fst) ∧
      (∀ cp ∈ placed, ∃ e, cp.2 = planCageDp
          (((groupByCage animals).lookup cp.1).getD []) (some e) exitMap) ∧
      buildNonlearning animals exitMap =
        ((placed.flatMap (fun cp =>
            (((groupByCage animals).lookup cp.1).getD []).zip cp.2.colors)).map
          Prod.fst,
         (placed.flatMap (fun cp =>
            (((groupByCage animals).lookup cp.1).getD []).zip cp.2.colors)).map
          (fun p => (p.1.animalID, p.2))) := by
  obtain ⟨hknd, hval, hcov, hnee⟩ := groupByCage_spec animals
  have ha0 : ∃ a, a ∈ animals := by
    cases animals with
    | nil => exact absurd rfl hne
    | cons a t => exact ⟨a, List.mem_cons_self a t⟩
  obtain ⟨a0, ha0⟩ := ha0
  have hcgn : a0.cage ∈ (groupByCage animals).map Prod.fst := hcov a0 ha0
  rcases hcand :
      arms.flatMap (fun s => ((groupByCage animals).map Prod.fst).map (fun fc =>
        ((greedyFrom (fun c s2 => planCageDp
              (((groupByCage animals).lookup c).getD []) (some s2) exitMap)
            s fc ((groupByCage animals).map Prod.fst)).1 +
          (if (greedyFrom (fun c s2 => planCageDp
                (((groupByCage animals).lookup c).getD []) (some s2) exitMap)
              s fc ((groupByCage animals).map Prod.fst)).2.2 = s then 0 else 1),
         (greedyFrom (fun c s2 => planCageDp
              (((groupByCage animals).lookup c).getD []) (some s2) exitMap)
            s fc ((groupByCage animals).map Prod.fst)).2.1)))
    with _ | ⟨c0, crest⟩
  · obtain ⟨cn0, cnt, hcn⟩ : ∃ cn0 cnt,
        (groupByCage animals).map Prod.fst = cn0 :: cnt := by
      cases hG : (groupByCage animals).map Prod.fst with
      | nil => rw [hG] at hcgn; cases hcgn
      | cons x xs => exact ⟨x, xs, rfl⟩
    rw [hcn] at hcand
    simp [arms, List.flatMap_cons, List.map_cons] at hcand
  · have hbest := candFold_mem Prod.fst crest c0
    rw [← hcand] at hbest
    obtain ⟨s, hs, hb2⟩ := List.mem_flatMap.mp hbest
    obtain ⟨fc, hfc, hb3⟩ := List.mem_map.mp hb2
    obtain ⟨hperm, hplans⟩ := greedyFrom_shape (fun c s2 => planCageDp
        (((groupByCage animals).lookup c).getD []) (some s2) exitMap)
      s fc ((groupByCage animals).map Prod.fst) hfc
    refine ⟨(crest.foldl (fun b x => if x.1 < b.1 then x else b) c0).2, ?_, ?_, ?_⟩
    · rw [← hb3]
      exact hperm
    · rw [← hb3]
      exact hplans
    · have hred : buildNonlearning animals exitMap =
          (match arms.flatMap (fun s =>
              ((groupByCage animals).map Prod.fst).map (fun fc =>
            ((greedyFrom (fun c s2 => planCageDp
                  (((groupByCage animals).lookup c).getD []) (some s2) exitMap)
                s fc ((groupByCage animals).map Prod.fst)).1 +
              (if (greedyFrom (fun c s2 => planCageDp
                    (((groupByCage animals).lookup c).getD []) (some s2) exitMap)
                  s fc ((groupByCage animals).map Prod.fst)).2.2 = s
                then 0 else 1),
             (greedyFrom (fun c s2 => planCageDp
                  (((groupByCage animals).lookup c).getD []) (some s2) exitMap)
                s fc ((groupByCage animals).map Prod.fst)).2.1))) with
           | [] => (([] : List Animal), ([] : List (String × Nat)))
           | c :: rest =>
             (((rest.foldl (fun b x => if x.1 < b.1 then x else b) c).2.flatMap
                 (fun cp => (((groupByCage animals).lookup cp.1).getD []).zip
                   cp.2.colors)).map Prod.fst,
              ((rest.foldl (fun b x => if x.1 < b.1 then x else b) c).2.flatMap
                 (fun cp => (((groupByCage animals).lookup cp.1).getD []).zip
                   cp.2.colors)).map (fun p => (p.1.animalID, p.2)))) := rfl
      rw [hred, hcand]

theorem map_flatMap_my {α β γ : Type} (l : List α) (f : α → List β) (g : β → γ) :
    (l.flatMap f).map g = l.flatMap (fun x => (f x).map g) := by
  induction l with
  | nil => rfl
  | cons a t ih =>
    rw [List.flatMap_cons, List.flatMap_cons, List.map_append, ih]

theorem buildNonlearning_spec (animals : List Animal) (exitMap : String → Nat)
    (hne : animals ≠ []) :
    (∃ cs : List String, cs.Nodup ∧ (∀ a ∈ animals, a.cage ∈ cs) ∧
      (buildNonlearning animals exitMap).1 =
        cs.flatMap (fun c => animals.filter (fun x => x.cage = c))) ∧
    ((buildNonlearning animals exitMap).2.map Prod.fst =
      (buildNonlearning animals exitMap).1.map Animal.animalID) ∧
    (∀ q ∈ (buildNonlearning animals exitMap).2,
      q.2 ∈ arms ∧ q.2 ≠ exitMap q.1) := by
  obtain ⟨hknd, hval, hcov, hnee⟩ := groupByCage_spec animals
  obtain ⟨placed, hperm, hplans, heq⟩ := buildNonlearning_shape animals exitMap hne
  have hkey : ∀ c ∈ (groupByCage animals).map Prod.fst,
      ((groupByCage animals).lookup c).getD [] =
        animals.filter (fun x => x.cage = c) ∧
      ((groupByCage animals).lookup c).getD [] ≠ [] := by
    intro c hc
    obtain ⟨p, hpG, hpc⟩ := List.mem_map.mp hc
    have hl : (groupByCage animals).lookup c = some p.2 := by
      rw [← hpc]
      exact lookup_eq_of_mem _ p.1 p.2 hknd hpG
    rw [hl]
    constructor
    · simp only [Option.getD_some]
      rw [hval p hpG, hpc]
    · simp only [Option.getD_some]
      exact hnee p hpG
  have hcp1 : ∀ cp ∈ placed, cp.1 ∈ (groupByCage animals).map Prod.fst :=
    fun cp hcp => hperm.mem_iff.mp (List.mem_map.mpr ⟨cp, hcp, rfl⟩)
  have hzip : ∀ cp ∈ placed,
      ((((groupByCage animals).lookup cp.1).getD []).zip cp.2.colors).map
          Prod.fst = animals.filter (fun x => x.cage = cp.1) ∧
      ∀ p ∈ (((groupByCage animals).lookup cp.1).getD []).zip cp.2.colors,
        p.2 ∈ arms ∧ p.2 ≠ exitMap p.1.animalID := by
    intro cp hcp
    have h1 := hkey cp.1 (hcp1 cp hcp)
    obtain ⟨e, he⟩ := hplans cp hcp
    have hspec := planCageDp_spec (((groupByCage animals).lookup cp.1).getD [])
      (some e) exitMap h1.2
    constructor
    · rw [List.map_fst_zip]
      · exact h1.1
      · rw [he]
        exact le_of_eq hspec.1.symm
    · intro p hp
      rw [he] at hp
      exact forall₂_zip_mem _ _ hspec.2.2.1 p hp
  refine ⟨⟨placed.map Prod.fst, hperm.symm.nodup hknd,
      fun a ha => hperm.symm.mem_iff.mp (hcov a ha), ?_⟩, ?_, ?_⟩
  · rw [heq]
    show ((placed.flatMap (fun cp =>
        (((groupByCage animals).lookup cp.1).getD []).zip cp.2.colors)).map
      Prod.fst) = _
    rw [map_flatMap_my, flatMap_map_fst]
    exact flatMap_congr_mem placed _ _ (fun cp hcp => (hzip cp hcp).1)
  · rw [heq]
    simp [List.map_map, Function.comp]
  · intro q hq
    rw [heq] at hq
    obtain ⟨p, hpm, hpq⟩ := List.mem_map.mp hq
    obtain ⟨cp, hcp, hpz⟩ := List.mem_flatMap.mp hpm
    have h2 := (hzip cp hcp).2 p hpz
    rw [← hpq]
    exact h2

/-- C4: for every non-empty roster, the ordered-animals list returned by
`build_nonlearning_plan_cage_packs` is a permutation of the input roster
(each animal appears exactly once), and it is a concatenation of whole-cage
blocks: for some duplicate-free list of cage labels covering every animal's
cage, the output equals the cage-by-cage concatenation of the roster's
animals with that cage, each block in its original relative order — so no
cage's animals are interleaved with another's. -/
theorem claim_C4_cage_blocks (animals : List Animal) (exitMap : String → Nat)
    (hne : animals ≠ []) :
    List.Perm (buildNonlearning animals exitMap).1 animals ∧
    ∃ cs : List String, cs.Nodup ∧ (∀ a ∈ animals, a.cage ∈ cs) ∧
      (buildNonlearning animals exitMap).1 =
        cs.flatMap (fun c => animals.filter (fun x => x.cage = c)) := by
  obtain ⟨⟨cs, hnd, hcov, heq⟩, _, _⟩ := buildNonlearning_spec animals exitMap hne
  refine ⟨?_, cs, hnd, hcov, heq⟩
  rw [heq]
  exact flatMap_filter_perm cs animals hnd hcov

/-- Witness for C4: a roster of three animals whose two `c1` animals are
interleaved with a `c2` animal. -/
theorem claim_C4_witness :
    ([sampleA1, sampleB1, sampleA2] : List Animal) ≠ [] ∧
    (List.Perm (buildNonlearning [sampleA1, sampleB1, sampleA2] wExitMap).1
        [sampleA1, sampleB1, sampleA2] ∧
      ∃ cs : List String, cs.Nodup ∧
        (∀ a ∈ ([sampleA1, sampleB1, sampleA2] : List Animal), a.cage ∈ cs) ∧
        (buildNonlearning [sampleA1, sampleB1, sampleA2] wExitMap).1 =
          cs.flatMap (fun c =>
            [sampleA1, sampleB1, sampleA2].filter (fun x => x.cage = c))) :=
  ⟨by simp, claim_C4_cage_blocks [sampleA1, sampleB1, sampleA2] wExitMap (by simp)⟩

/-- C3: on every reversal (non-learning) day table produced by
`generate_day_tables`, every row's ExitArm differs from that animal's
learning-day exit arm recorded in the exit-arm map. -/
theorem claim_C3_reversal_exit_differs (O : Oracle) (animals : List Animal)
    (exitMap : String → Nat) (ld rd n : Nat) (hne : animals ≠ []) :
    ∀ t ∈ generateDayTables O animals ld rd n exitMap,
      t.isLearning = false → ∀ r ∈ t.rows, r.exitArm ≠ exitMap r.animalID := by
  intro t ht hrev r hr
  obtain ⟨d, hdr, hteq⟩ := List.mem_map.mp ht
  subst hteq
  dsimp only [] at hrev hr
  rw [decide_eq_false_iff_not] at hrev
  rw [if_neg hrev] at hr
  dsimp only [] at hr
  obtain ⟨_, hids, hvals⟩ := buildNonlearning_spec animals exitMap hne
  have hmem2 : (r.animalID, r.exitArm) ∈
      ((buildNonlearning animals exitMap).1).map
        (fun a => (a.animalID,
          ((((buildNonlearning animals exitMap).2).lookup a.animalID).getD 0))) := by
    rw [← rowsProj O n (decide (d < ld)) exitMap
      (fun id => (((buildNonlearning animals exitMap).2).lookup id).getD 0)
      ((buildNonlearning animals exitMap).1) (d * animals.length)]
    exact List.mem_map_of_mem _ hr
  obtain ⟨a, haMem, haEq⟩ := List.mem_map.mp hmem2
  have hid : a.animalID = r.animalID := (Prod.mk.injEq _ _ _ _).mp haEq |>.1
  have harm : (((buildNonlearning animals exitMap).2).lookup a.animalID).getD 0 =
      r.exitArm := (Prod.mk.injEq _ _ _ _).mp haEq |>.2
  have hkeys : a.animalID ∈ (buildNonlearning animals exitMap).2.map Prod.fst := by
    rw [hids]
    exact List.mem_map.mpr ⟨a, haMem, rfl⟩
  obtain ⟨v, hlook, hvm⟩ := lookupNat_mem _ a.animalID hkeys
  have hv := hvals (a.animalID, v) hvm
  rw [hlook] at harm
  simp only [Option.getD_some] at harm
  rw [← harm, ← hid]
  exact hv.2

/-- Witness for C3: a two-animal schedule with one learning and one reversal
day under a fixed oracle. -/
theorem claim_C3_witness :
    ([sampleA1, sampleB1] : List Animal) ≠ [] ∧
    ∀ t ∈ generateDayTables constOracle [sampleA1, sampleB1] 1 1 2 wExitMap,
      t.isLearning = false → ∀ r ∈ t.rows, r.exitArm ≠ wExitMap r.animalID :=
  ⟨by simp, claim_C3_reversal_exit_differs constOracle [sampleA1, sampleB1]
    wExitMap 1 1 2 (by simp)⟩

/- ------------------- balancer: quota bookkeeping ------------------- -/

theorem quota_get_dec (q : Quota) (a b : Nat) (ha : a ∈ arms) (hb : b ∈ arms) :
    (q.dec b).get a = q.get a - (if b = a then 1 else 0) := by
  simp only [arms, List.mem_cons] at ha hb
  rcases ha with rfl | rfl | rfl | ha
  · rcases hb with rfl | rfl | rfl | hb <;> simp [Quota.get, Quota.dec]
    cases hb
  · rcases hb with rfl | rfl | rfl | hb <;> simp [Quota.get, Quota.dec]
    cases hb
  · rcases hb with rfl | rfl | rfl | hb <;> simp [Quota.get, Quota.dec]
    cases hb
  · cases ha

theorem quota_sum_dec (q : Quota) (b : Nat) : (q.dec b).sum = q.sum - 1 := by
  unfold Quota.dec Quota.sum
  split_ifs <;> dsimp only [] <;> ring

theorem quota_sum_eq (q : Quota) : q.sum = q.get 1 + q.get 2 + q.get 3 := by
  simp [Quota.sum, Quota.get]

theorem keyGt_fst_ge {x y : Int × Nat} (h : keyGt x y = true) : y.1 ≤ x.1 := by
  simp only [keyGt, Bool.or_eq_true, Bool.and_eq_true, decide_eq_true_eq] at h
  rcases h with h | ⟨h, _⟩
  · exact le_of_lt h
  · exact le_of_eq h.symm

theorem keyGt_fst_le {x y : Int × Nat} (h : ¬ keyGt x y = true) : x.1 ≤ y.1 := by
  rw [Bool.not_eq_true] at h
  simp only [keyGt, Bool.or_eq_false_iff, decide_eq_false_iff_not] at h
  exact le_of_not_lt h.1

theorem pickAlt_mem (rem : Quota) (p : Nat → Nat) : pickAlt rem p ∈ arms := by
  simp only [pickAlt]
  split_ifs <;> simp [arms]

theorem pickAlt_ge (rem : Quota) (p : Nat → Nat) :
    ∀ a ∈ arms, rem.get a ≤ rem.get (pickAlt rem p) := by
  intro a ha
  simp only [arms, List.mem_cons] at ha
  simp only [pickAlt]
  split_ifs with h1 h2 h2
  · have g21 := keyGt_fst_ge h1
    have g23 := keyGt_fst_ge h2
    rcases ha with rfl | rfl | rfl | ha
    · exact le_trans (le_trans g21 g23) (le_refl _)
    · exact g23
    · exact le_refl _
    · cases ha
  · have g21 := keyGt_fst_ge h1
    have g32 := keyGt_fst_le h2
    rcases ha with rfl | rfl | rfl | ha
    · exact g21
    · exact le_refl _
    · exact g32
    · cases ha
  · have g12 := keyGt_fst_le h1
    have g13 := keyGt_fst_ge h2
    rcases ha with rfl | rfl | rfl | ha
    · exact g13
    · exact le_trans g12 g13
    · exact le_refl _
    · cases ha
  · have g12 := keyGt_fst_le h1
    have g31 := keyGt_fst_le h2
    rcases ha with rfl | rfl | rfl | ha
    · exact le_refl _
    · exact g12
    · exact g31
    · cases ha

theorem quota_pos_get (q : Quota) (hpos : 0 < q.sum)
    (_hnn : ∀ a ∈ arms, 0 ≤ q.get a) : ∃ a ∈ arms, 0 < q.get a := by
  by_contra h
  push_neg at h
  have h1 := h 1 (by simp [arms])
  have h2 := h 2 (by simp [arms])
  have h3 := h 3 (by simp [arms])
  rw [quota_sum_eq] at hpos
  omega

theorem dec_nonneg (q : Quota) (b : Nat) (hb : b ∈ arms)
    (hnn : ∀ a ∈ arms, 0 ≤ q.get a) (hpos : 0 < q.get b) :
    ∀ a ∈ arms, 0 ≤ (q.dec b).get a := by
  intro a ha
  rw [quota_get_dec q a b ha hb]
  by_cases he : b = a
  · rw [if_pos he, ← he]
    omega
  · rw [if_neg he]
    have := hnn a ha
    omega

theorem assignStep_spec (pri : Nat → Nat → Nat) (st : BState) (arm : Nat)
    (harm : arm ∈ arms) (hnn : ∀ a ∈ arms, 0 ≤ st.rem.get a)
    (hpos : 0 < st.rem.sum) :
    (assignStep pri st arm).1 ∈ arms ∧
    (assignStep pri st arm).2.rem = st.rem.dec (assignStep pri st arm).1 ∧
    0 < st.rem.get (assignStep pri st arm).1 := by
  unfold assignStep
  by_cases h : st.rem.get arm > 0
  · rw [if_pos h]
    exact ⟨harm, rfl, h⟩
  · rw [if_neg h]
    dsimp only []
    refine ⟨pickAlt_mem _ _, rfl, ?_⟩
    obtain ⟨b, hb, hbpos⟩ := quota_pos_get st.rem hpos hnn
    have hge := pickAlt_ge st.rem (pri st.k) b hb
    omega

theorem adjustSeq_spec (pri : Nat → Nat → Nat) :
    ∀ (l : List Nat) (st : BState),
      (∀ x ∈ l, x ∈ arms) → (∀ a ∈ arms, 0 ≤ st.rem.get a) →
      (l.length : Int) ≤ st.rem.sum →
      (adjustSeq pri st l).1.length = l.length ∧
      (∀ x ∈ (adjustSeq pri st l).1, x ∈ arms) ∧
      (adjustSeq pri st l).2.rem.sum = st.rem.sum - l.length ∧
      (∀ a ∈ arms, 0 ≤ (adjustSeq pri st l).2.rem.get a) ∧
      (∀ a ∈ arms, (adjustSeq pri st l).2.rem.get a =
        st.rem.get a - ((adjustSeq pri st l).1.count a : Int)) := by
  intro l
  induction l with
  | nil =>
    intro st _ hnn _
    refine ⟨rfl, ?_, ?_, hnn, ?_⟩
    · intro x hx; cases hx
    · simp [adjustSeq]
    · intro a _; simp [adjustSeq]
  | cons arm rest ih =>
    intro st hmem hnn hlen
    simp only [adjustSeq]
    have hpos : 0 < st.rem.sum := by
      rw [List.length_cons] at hlen
      push_cast at hlen
      omega
    obtain ⟨ho1, ho2, ho3⟩ := assignStep_spec pri st arm
      (hmem arm (List.mem_cons_self arm rest)) hnn hpos
    have hnn2 : ∀ a ∈ arms, 0 ≤ (assignStep pri st arm).2.rem.get a := by
      rw [ho2]
      exact dec_nonneg st.rem _ ho1 hnn ho3
    have hsum2 : (assignStep pri st arm).2.rem.sum = st.rem.sum - 1 := by
      rw [ho2, quota_sum_dec]
    have hlen2 : ((rest.length : Int)) ≤ (assignStep pri st arm).2.rem.sum := by
      rw [hsum2]
      rw [List.length_cons] at hlen
      push_cast at hlen
      omega
    obtain ⟨ih1, ih2, ih3, ih4, ih5⟩ := ih (assignStep pri st arm).2
      (fun x hx => hmem x (List.mem_cons_of_mem arm hx)) hnn2 hlen2
    refine ⟨?_, ?_, ?_, ih4, ?_⟩
    · simp [ih1]
    · intro x hx
      rcases List.mem_cons.mp hx with h | h
      · rw [h]; exact ho1
      · exact ih2 x h
    · rw [ih3, hsum2]
      rw [List.length_cons]
      push_cast
      ring
    · intro a ha
      rw [ih5 a ha]
      have hstep : (assignStep pri st arm).2.rem.get a =
          st.rem.get a - (if (assignStep pri st arm).1 = a then 1 else 0) := by
        rw [ho2]
        exact quota_get_dec st.rem a _ ha ho1
      rw [hstep, List.count_cons]
      by_cases he : (assignStep pri st arm).1 = a
      · rw [if_pos he]
        simp [he]
        ring
      · rw [if_neg he]
        have hbe : ((assignStep pri st arm).1 == a) = false :=
          beq_eq_false_iff_ne.mpr he
        simp [hbe]

theorem seqFromOffset_length (m offset : Nat) :
    (seqFromOffset m offset).length = m := by
  simp [seqFromOffset]

theorem seqFromOffset_mem (m offset : Nat) :
    ∀ x ∈ seqFromOffset m offset, x ∈ arms := by
  intro x hx
  simp only [seqFromOffset, List.mem_map, List.mem_range] at hx
  obtain ⟨j, _, rfl⟩ := hx
  have hm : (j + offset) % 3 < 3 := Nat.mod_lt _ (by omega)
  simp only [arms, List.mem_cons]
  omega

theorem chooseRotation_length (m : Nat) (rem : Quota) :
    (chooseRotation m rem).length = m := by
  simp only [chooseRotation]
  split_ifs <;> exact seqFromOffset_length m _

theorem chooseRotation_mem (m : Nat) (rem : Quota) :
    ∀ x ∈ chooseRotation m rem, x ∈ arms := by
  simp only [chooseRotation]
  split_ifs <;> exact seqFromOffset_mem m _

theorem zip_map_fst_my {β : Type} :
    ∀ (g : List Animal) (l : List β), g.length ≤ l.length →
      (((g.zip l).map (fun p => (p.1.animalID, p.2))).map Prod.fst) =
        g.map Animal.animalID := by
  intro g
  induction g with
  | nil => intro l _; rfl
  | cons a t ih =>
    intro l hl
    cases l with
    | nil => simp at hl
    | cons b bt =>
      simp only [List.zip_cons_cons, List.map_cons]
      rw [ih bt (by simpa using hl)]

theorem zip_map_snd_my {β : Type} :
    ∀ (g : List Animal) (l : List β), l.length ≤ g.length →
      (((g.zip l).map (fun p => (p.1.animalID, p.2))).map Prod.snd) = l := by
  intro g
  induction g with
  | nil =>
    intro l hl
    have h0 : l = [] := List.length_eq_zero.mp (Nat.le_zero.mp (by simpa using hl))
    subst h0; rfl
  | cons a t ih =>
    intro l hl
    cases l with
    | nil => rfl
    | cons b bt =>
      simp only [List.zip_cons_cons, List.map_cons]
      rw [ih bt (by simpa using hl)]

theorem assignGroups_spec (pri : Nat → Nat → Nat) :
    ∀ (gs : List (List Animal)) (st : BState),
      (∀ a ∈ arms, 0 ≤ st.rem.get a) →
      (((gs.map List.length).sum : Int)) ≤ st.rem.sum →
      ((assignGroups pri st gs).1.map Prod.fst =
        gs.flatten.map Animal.animalID) ∧
      (∀ q ∈ (assignGroups pri st gs).1, q.2 ∈ arms) ∧
      (assignGroups pri st gs).2.rem.sum =
        st.rem.sum - ((gs.map List.length).sum : Int) ∧
      (∀ a ∈ arms, 0 ≤ (assignGroups pri st gs).2.rem.get a) ∧
      (∀ a ∈ arms, (assignGroups pri st gs).2.rem.get a =
        st.rem.get a - (((assignGroups pri st gs).1.map Prod.snd).count a : Int)) := by
  intro gs
  induction gs with
  | nil =>
    intro st hnn _
    refine ⟨rfl, ?_, ?_, hnn, ?_⟩
    · intro q hq; cases hq
    · simp [assignGroups]
    · intro a _; simp [assignGroups]
  | cons g gs ih =>
    intro st hnn hlen
    have htot : ((g :: gs).map List.length).sum =
        g.length + (gs.map List.length).sum := by
      rw [List.map_cons, List.sum_cons]
    have hbud1 : (((chooseRotation g.length st.rem).length : Int)) ≤ st.rem.sum := by
      rw [chooseRotation_length]
      rw [htot] at hlen
      rw [Nat.cast_add] at hlen
      omega
    obtain ⟨a1, a2, a3, a4, a5⟩ := adjustSeq_spec pri
      (chooseRotation g.length st.rem) st
      (chooseRotation_mem g.length st.rem) hnn hbud1
    have hlen1 : (adjustSeq pri st (chooseRotation g.length st.rem)).1.length =
        g.length := by
      rw [a1, chooseRotation_length]
    have hsum1 : (adjustSeq pri st (chooseRotation g.length st.rem)).2.rem.sum =
        st.rem.sum - g.length := by
      rw [a3, chooseRotation_length]
    have hbud2 : (((gs.map List.length).sum : Int)) ≤
        (adjustSeq pri st (chooseRotation g.length st.rem)).2.rem.sum := by
      rw [hsum1]
      rw [htot] at hlen
      rw [Nat.cast_add] at hlen
      omega
    obtain ⟨ih1, ih2, ih3, ih4, ih5⟩ :=
      ih (adjustSeq pri st (chooseRotation g.length st.rem)).2 a4 hbud2
    simp only [assignGroups]
    refine ⟨?_, ?_, ?_, ih4, ?_⟩
    · rw [List.map_append, ih1, List.flatten_cons, List.map_append,
        zip_map_fst_my g _ (le_of_eq hlen1.symm)]
    · intro q hq
      rcases List.mem_append.mp hq with h | h
      · obtain ⟨p, hpz, hpq⟩ := List.mem_map.mp h
        rw [← hpq]
        exact a2 p.2 (List.of_mem_zip hpz).2
      · exact ih2 q h
    · rw [ih3, hsum1, htot]
      push_cast
      ring
    · intro a ha
      rw [ih5 a ha, a5 a ha, List.map_append, List.count_append,
        zip_map_snd_my g _ (le_of_eq hlen1)]
      push_cast
      ring

theorem targetQuota_sum (N : Nat) : (targetQuota N).sum = (N : Int) := by
  unfold targetQuota Quota.sum
  dsimp only []
  split_ifs <;> omega

theorem targetQuota_nonneg (N : Nat) : ∀ a ∈ arms, 0 ≤ (targetQuota N).get a := by
  intro a ha
  simp only [arms, List.mem_cons] at ha
  rcases ha with rfl | rfl | rfl | ha
  · show (0:Int) ≤ (targetQuota N).get 1
    unfold targetQuota Quota.get
    norm_num
    split_ifs <;> omega
  · show (0:Int) ≤ (targetQuota N).get 2
    unfold targetQuota Quota.get
    norm_num
    split_ifs <;> omega
  · show (0:Int) ≤ (targetQuota N).get 3
    unfold targetQuota Quota.get
    norm_num
    omega
  · cases ha

/-- C1: for every roster with pairwise-distinct AnimalIDs and every outcome
of the random draws (any tie-break priority stream and any shuffled grouping
whose concatenation is a permutation of the roster),
`assign_balanced_exit_arms` returns one entry per AnimalID (its keys are
exactly the roster's ids, without duplicates), every assigned arm lies in
{1,2,3}, and the arm usage counts equal the target formula for
N = len(animals): arm 1 gets N/3 plus 1 if N % 3 ≥ 1, arm 2 gets N/3 plus 1
if N % 3 ≥ 2, and arm 3 gets N/3 — hence the three counts differ by at most
one. -/
theorem claim_C1_balanced_exit_arms (pri : Nat → Nat → Nat)
    (animals : List Animal) (groups : List (List Animal))
    (hids : (animals.map Animal.animalID).Nodup)
    (hperm : List.Perm groups.flatten animals) :
    ((assignCore pri animals.length groups).map Prod.fst).Nodup ∧
    List.Perm ((assignCore pri animals.length groups).map Prod.fst)
      (animals.map Animal.animalID) ∧
    (∀ q ∈ assignCore pri animals.length groups, q.2 ∈ arms) ∧
    ((assignCore pri animals.length groups).map Prod.snd).count 1 =
      animals.length / 3 + (if animals.length % 3 ≥ 1 then 1 else 0) ∧
    ((assignCore pri animals.length groups).map Prod.snd).count 2 =
      animals.length / 3 + (if animals.length % 3 ≥ 2 then 1 else 0) ∧
    ((assignCore pri animals.length groups).map Prod.snd).count 3 =
      animals.length / 3 := by
  simp only [assignCore]
  have htot : ((groups.map List.length).sum) = animals.length := by
    rw [← List.length_flatten]
    exact hperm.length_eq
  have hbud : (((groups.map List.length).sum : Int)) ≤
      ((⟨targetQuota animals.length, 0⟩ : BState)).rem.sum := by
    show _ ≤ (targetQuota animals.length).sum
    rw [targetQuota_sum, htot]
  obtain ⟨hfst, hvals, hsum, hnn, hcnt⟩ := assignGroups_spec pri groups
    ⟨targetQuota animals.length, 0⟩ (targetQuota_nonneg animals.length) hbud
  have hzero : ∀ a ∈ arms,
      (assignGroups pri ⟨targetQuota animals.length, 0⟩ groups).2.rem.get a
        = 0 := by
    have hs0 :
        (assignGroups pri ⟨targetQuota animals.length, 0⟩ groups).2.rem.sum
          = 0 := by
      rw [hsum]
      show (targetQuota animals.length).sum - _ = 0
      rw [targetQuota_sum, htot]
      ring
    intro a ha
    have h1 := hnn 1 (by simp [arms])
    have h2 := hnn 2 (by simp [arms])
    have h3 := hnn 3 (by simp [arms])
    rw [quota_sum_eq] at hs0
    simp only [arms, List.mem_cons] at ha
    rcases ha with rfl | rfl | rfl | ha
    · omega
    · omega
    · omega
    · cases ha
  refine ⟨?_, ?_, hvals, ?_, ?_, ?_⟩
  · rw [hfst]
    exact ((hperm.map Animal.animalID).symm).nodup hids
  · rw [hfst]
    exact hperm.map Animal.animalID
  · have hc1 := hcnt 1 (by simp [arms])
    rw [hzero 1 (by simp [arms])] at hc1
    have hg : ((⟨targetQuota animals.length, 0⟩ : BState)).rem.get 1 =
        (animals.length / 3 : Nat) +
          (if animals.length % 3 ≥ 1 then (1:Int) else 0) := by
      show (targetQuota animals.length).get 1 = _
      unfold targetQuota Quota.get
      norm_num
    rw [hg] at hc1
    split_ifs at hc1 ⊢ <;> omega
  · have hc2 := hcnt 2 (by simp [arms])
    rw [hzero 2 (by simp [arms])] at hc2
    have hg : ((⟨targetQuota animals.length, 0⟩ : BState)).rem.get 2 =
        (animals.length / 3 : Nat) +
          (if animals.length % 3 ≥ 2 then (1:Int) else 0) := by
      show (targetQuota animals.length).get 2 = _
      unfold targetQuota Quota.get
      norm_num
    rw [hg] at hc2
    split_ifs at hc2 ⊢ <;> omega
  · have hc3 := hcnt 3 (by simp [arms])
    rw [hzero 3 (by simp [arms])] at hc3
    have hg : ((⟨targetQuota animals.length, 0⟩ : BState)).rem.get 3 =
        ((animals.length / 3 : Nat) : Int) := by
      show (targetQuota animals.length).get 3 = _
      unfold targetQuota Quota.get
      norm_num
    rw [hg] at hc3
    omega

/-- Witness for C1: a three-animal roster split into two shuffled groups,
with a constant tie-break priority stream. -/
theorem claim_C1_witness :
    (([sampleA1, sampleB1, sampleA2] : List Animal).map Animal.animalID).Nodup ∧
    List.Perm ([[sampleA1], [sampleB1, sampleA2]] : List (List Animal)).flatten
      [sampleA1, sampleB1, sampleA2] ∧
    (((assignCore (fun _ _ => 0)
          ([sampleA1, sampleB1, sampleA2] : List Animal).length
          [[sampleA1], [sampleB1, sampleA2]]).map Prod.fst).Nodup ∧
      List.Perm ((assignCore (fun _ _ => 0)
          ([sampleA1, sampleB1, sampleA2] : List Animal).length
          [[sampleA1], [sampleB1, sampleA2]]).map Prod.fst)
        (([sampleA1, sampleB1, sampleA2] : List Animal).map Animal.animalID) ∧
      (∀ q ∈ assignCore (fun _ _ => 0)
          ([sampleA1, sampleB1, sampleA2] : List Animal).length
          [[sampleA1], [sampleB1, sampleA2]], q.2 ∈ arms) ∧
      ((assignCore (fun _ _ => 0)
          ([sampleA1, sampleB1, sampleA2] : List Animal).length
          [[sampleA1], [sampleB1, sampleA2]]).map Prod.snd).count 1 =
        ([sampleA1, sampleB1, sampleA2] : List Animal).length / 3 +
          (if ([sampleA1, sampleB1, sampleA2] : List Animal).length % 3 ≥ 1
            then 1 else 0) ∧
      ((assignCore (fun _ _ => 0)
          ([sampleA1, sampleB1, sampleA2] : List Animal).length
          [[sampleA1], [sampleB1, sampleA2]]).map Prod.snd).count 2 =
        ([sampleA1, sampleB1, sampleA2] : List Animal).length / 3 +
          (if ([sampleA1, sampleB1, sampleA2] : List Animal).length % 3 ≥ 2
            then 1 else 0) ∧
      ((assignCore (fun _ _ => 0)
          ([sampleA1, sampleB1, sampleA2] : List Animal).length
          [[sampleA1], [sampleB1, sampleA2]]).map Prod.snd).count 3 =
        ([sampleA1, sampleB1, sampleA2] : List Animal).length / 3) :=
  ⟨by decide, List.Perm.refl _,
    claim_C1_balanced_exit_arms (fun _ _ => 0) [sampleA1, sampleB1, sampleA2]
      [[sampleA1], [sampleB1, sampleA2]] (by decide) (List.Perm.refl _)⟩

end YMaze
